import Mathlib

/-!
Verification of the GCS virtual-filesystem backend adapter
(`internal/vfs/gcsfs.go`).

Go strings are embedded as lists of characters (`GoString`).  The Go
standard-library path helpers used by the adapter (`path.Clean`,
`path.Join`, `strings.TrimPrefix`, `strings.HasPrefix`, ...) are given
executable definitions below with the exact lexical semantics of their
Go counterparts.  The object-store backend is modelled by an explicit
state (`FsState`): the list of objects currently in the bucket, the
metadata-overlay records, and a trace of the backend RPCs issued so far.
-/

/-- A Go string, embedded as its list of characters. -/
abbrev GoString := List Char

/-- Go `strings.HasPrefix(s, pre)`. -/
def listStartsWith (s pre : GoString) : Bool :=
  pre.isPrefixOf s

/-- Go `strings.HasSuffix(s, suf)`. -/
def listEndsWith (s suf : GoString) : Bool :=
  suf.isSuffixOf s

/-- Go `strings.TrimPrefix(s, pre)`. -/
def goTrimPfx (s pre : GoString) : GoString :=
  if listStartsWith s pre then s.drop pre.length else s

/-- Go `strings.TrimSuffix(s, suf)`. -/
def goTrimSfx (s suf : GoString) : GoString :=
  if listEndsWith s suf then s.take (s.length - suf.length) else s

/-- Split a string at every `'/'`, keeping empty components
(the component view used to compute Go `path.Clean`). -/
def splitOnSlash : GoString → List GoString
  | [] => [[]]
  | c :: cs =>
    if c = '/' then [] :: splitOnSlash cs
    else
      match splitOnSlash cs with
      | [] => [[c]]
      | s :: ss => (c :: s) :: ss

/-- Join components with `'/'` (inverse of `splitOnSlash`). -/
def intercalateSlash : List GoString → GoString
  | [] => []
  | [s] => s
  | s :: rest => s ++ '/' :: intercalateSlash rest

/-- One step of Go `path.Clean`'s element processing: skip empty and
`"."` elements, let `".."` pop the last real element (or accumulate at
the front of a relative path, or vanish at the root of a rooted path),
and push every other element. -/
def cleanStep (rooted : Bool) (stack : List GoString) (comp : GoString) : List GoString :=
  if comp = [] ∨ comp = ['.'] then stack
  else if comp = ['.', '.'] then
    if rooted then stack.dropLast
    else if stack ≠ [] ∧ stack.getLast? ≠ some ['.', '.'] then stack.dropLast
    else stack ++ [['.', '.']]
  else stack ++ [comp]

/-- Go `path.Clean`, computed on the slash-separated components. -/
def pathClean (p : GoString) : GoString :=
  if p = [] then ['.']
  else if p.head? = some '/' then
    '/' :: intercalateSlash ((splitOnSlash p).foldl (cleanStep true) [])
  else if (splitOnSlash p).foldl (cleanStep false) [] = [] then ['.']
  else intercalateSlash ((splitOnSlash p).foldl (cleanStep false) [])

/-- Go `path.Join(a, b)` for two elements (the only arity the adapter
uses): empty elements are skipped, the rest are joined with `'/'` and
cleaned; the result is `""` when both elements are empty. -/
def goPathJoin2 (a b : GoString) : GoString :=
  if a = [] ∧ b = [] then []
  else if a = [] then pathClean b
  else pathClean (a ++ '/' :: b)

/-- `GCSFs.Join` (gcsfs.go:670-672) for two elements:
`strings.TrimPrefix(path.Join(elem...), "/")`. -/
def gcsJoin2 (a b : GoString) : GoString :=
  goTrimPfx (goPathJoin2 a b) ['/']

example : pathClean [] = ['.'] := by decide
example : pathClean ['/'] = ['/'] := by decide
example : pathClean ['/', 'a', '/', '.', '.', '/', 'b'] = ['/', 'b'] := by decide
example : pathClean ['a', '/', '.', '.', '/', '.', '.'] = ['.', '.'] := by decide
example : pathClean ['/', '.', '.', '/', 'a'] = ['/', 'a'] := by decide
example : pathClean ['a', '/', '/', 'b', '/', '.', '/'] = ['a', '/', 'b'] := by decide
example : pathClean ['a', '/', '.', '.'] = ['.'] := by decide
example : gcsJoin2 ['k', '/'] ['a', '/', 'b'] = ['k', '/', 'a', '/', 'b'] := by decide
example : goPathJoin2 [] [] = [] := by decide

/-! ### Lemmas about the string layer -/

theorem listStartsWith_iff {s pre : GoString} : listStartsWith s pre = true ↔ pre <+: s := by
  simp [listStartsWith, List.isPrefixOf_iff_prefix]

theorem listStartsWith_append_self (a b : GoString) : listStartsWith (a ++ b) a = true := by
  simp [listStartsWith_iff, List.prefix_append]

theorem goTrimPfx_append_self (a b : GoString) : goTrimPfx (a ++ b) a = b := by
  simp [goTrimPfx, listStartsWith_append_self, List.drop_left]

theorem goTrimPfx_of_not {s pre : GoString} (h : listStartsWith s pre = false) :
    goTrimPfx s pre = s := by
  simp [goTrimPfx, h]

theorem listStartsWith_of_long {s pre : GoString} (h : s.length < pre.length) :
    listStartsWith s pre = false := by
  by_contra hc
  have : pre <+: s := listStartsWith_iff.mp (by simpa using hc)
  exact absurd this.length_le (by omega)

theorem splitOnSlash_ne_nil (l : GoString) : splitOnSlash l ≠ [] := by
  induction l with
  | nil => simp [splitOnSlash]
  | cons c cs ih =>
    by_cases h : c = '/'
    · simp [splitOnSlash, h]
    · simp only [splitOnSlash, if_neg h]
      rcases he : splitOnSlash cs with _ | ⟨s, ss⟩
      · simp
      · simp

theorem splitOnSlash_slash_cons (cs : GoString) :
    splitOnSlash ('/' :: cs) = [] :: splitOnSlash cs := by
  simp [splitOnSlash]

theorem splitOnSlash_char_cons {c : Char} (hc : c ≠ '/') {cs : GoString}
    {s : GoString} {ss : List GoString} (h : splitOnSlash cs = s :: ss) :
    splitOnSlash (c :: cs) = (c :: s) :: ss := by
  simp [splitOnSlash, hc, h]

theorem splitOnSlash_noslash {x : GoString} (h : '/' ∉ x) : splitOnSlash x = [x] := by
  induction x with
  | nil => simp [splitOnSlash]
  | cons c cs ih =>
    have hc : c ≠ '/' := fun he => h (he ▸ List.mem_cons_self c cs)
    have hcs : '/' ∉ cs := fun hm => h (List.mem_cons_of_mem c hm)
    exact splitOnSlash_char_cons hc (ih hcs)

theorem splitOnSlash_append_slash {x : GoString} (h : '/' ∉ x) (t : GoString) :
    splitOnSlash (x ++ '/' :: t) = x :: splitOnSlash t := by
  induction x with
  | nil => simpa using splitOnSlash_slash_cons t
  | cons c cs ih =>
    have hc : c ≠ '/' := fun he => h (he ▸ List.mem_cons_self c cs)
    have hcs : '/' ∉ cs := fun hm => h (List.mem_cons_of_mem c hm)
    exact splitOnSlash_char_cons hc (ih hcs)

theorem splitOnSlash_intercalate : ∀ (segs : List GoString), segs ≠ [] →
    (∀ s ∈ segs, '/' ∉ s) → splitOnSlash (intercalateSlash segs) = segs
  | [], h, _ => absurd rfl h
  | [s], _, hs => by
    simpa [intercalateSlash] using splitOnSlash_noslash (hs s (by simp))
  | s :: t :: rest, _, hs => by
    have hrec := splitOnSlash_intercalate (t :: rest) (by simp)
      (fun u hu => hs u (List.mem_cons_of_mem s hu))
    calc splitOnSlash (intercalateSlash (s :: t :: rest))
        = splitOnSlash (s ++ '/' :: intercalateSlash (t :: rest)) := by
          simp [intercalateSlash]
      _ = s :: splitOnSlash (intercalateSlash (t :: rest)) :=
          splitOnSlash_append_slash (hs s (by simp)) _
      _ = s :: t :: rest := by rw [hrec]

theorem intercalateSlash_cons (s : GoString) (rest : List GoString) (h : rest ≠ []) :
    intercalateSlash (s :: rest) = s ++ '/' :: intercalateSlash rest := by
  rcases rest with _ | ⟨t, tr⟩
  · exact absurd rfl h
  · rfl

theorem intercalateSlash_append : ∀ (a b : List GoString), a ≠ [] → b ≠ [] →
    intercalateSlash (a ++ b) = intercalateSlash a ++ '/' :: intercalateSlash b
  | [], _, h, _ => absurd rfl h
  | [s], b, _, hb => by
    rw [List.singleton_append, intercalateSlash_cons s b hb]
    rfl
  | s :: t :: rest, b, _, hb => by
    have ih := intercalateSlash_append (t :: rest) b (by simp) hb
    calc intercalateSlash ((s :: t :: rest) ++ b)
        = intercalateSlash (s :: ((t :: rest) ++ b)) := by simp
      _ = s ++ '/' :: intercalateSlash ((t :: rest) ++ b) :=
          intercalateSlash_cons _ _ (by simp)
      _ = s ++ '/' :: (intercalateSlash (t :: rest) ++ '/' :: intercalateSlash b) := by
          rw [ih]
      _ = intercalateSlash (s :: t :: rest) ++ '/' :: intercalateSlash b := by
          rw [intercalateSlash_cons s (t :: rest) (by simp)]
          simp

/-- Pieces that survive `path.Clean`'s element processing. -/
def keepPiece (s : GoString) : Bool :=
  ¬(s = [] ∨ s = ['.'])

theorem foldl_cleanStep (rooted : Bool) : ∀ (xs : List GoString) (acc : List GoString),
    (∀ s ∈ xs, s ≠ ['.', '.']) →
    xs.foldl (cleanStep rooted) acc = acc ++ xs.filter keepPiece
  | [], acc, _ => by simp
  | x :: xs, acc, h => by
    have hx : x ≠ ['.', '.'] := h x (by simp)
    have hxs : ∀ s ∈ xs, s ≠ ['.', '.'] := fun s hs => h s (List.mem_cons_of_mem x hs)
    by_cases hk : x = [] ∨ x = ['.']
    · have hstep : cleanStep rooted acc x = acc := by simp [cleanStep, hk]
      have hfilter : keepPiece x = false := by simp [keepPiece, hk]
      simp only [List.foldl_cons, hstep, List.filter_cons, hfilter]
      exact foldl_cleanStep rooted xs acc hxs
    · have hstep : cleanStep rooted acc x = acc ++ [x] := by
        simp [cleanStep, hk, hx]
      have hfilter : keepPiece x = true := by simp [keepPiece, hk]
      simp only [List.foldl_cons, hstep, List.filter_cons, hfilter]
      rw [foldl_cleanStep rooted xs (acc ++ [x]) hxs]
      simp

theorem pathClean_rooted (segs : List GoString)
    (h : ∀ s ∈ segs, '/' ∉ s ∧ s ≠ ['.', '.']) :
    pathClean ('/' :: intercalateSlash segs) = '/' :: intercalateSlash (segs.filter keepPiece) := by
  rcases segs with _ | ⟨s, rest⟩
  · decide
  · have hne : ('/' :: intercalateSlash (s :: rest)) ≠ [] := by simp
    have hhead : ('/' :: intercalateSlash (s :: rest)).head? = some '/' := rfl
    have hsplit : splitOnSlash ('/' :: intercalateSlash (s :: rest))
        = [] :: (s :: rest) := by
      rw [splitOnSlash_slash_cons,
        splitOnSlash_intercalate (s :: rest) (by simp) (fun u hu => (h u hu).1)]
    have hfold : (([] : GoString) :: (s :: rest)).foldl (cleanStep true) []
        = (s :: rest).filter keepPiece := by
      have hall : ∀ u ∈ ([] : GoString) :: (s :: rest), u ≠ ['.', '.'] := by
        intro u hu
        rcases List.mem_cons.mp hu with hu | hu
        · simp [hu]
        · exact (h u hu).2
      have := foldl_cleanStep true (([] : GoString) :: (s :: rest)) [] hall
      simpa [List.filter_cons, keepPiece] using this
    rw [pathClean, if_neg hne, if_pos hhead, hsplit, hfold]

theorem intercalateSlash_head? (s : GoString) (hs : s ≠ []) (rest : List GoString) :
    (intercalateSlash (s :: rest)).head? = s.head? := by
  rcases rest with _ | ⟨t, tr⟩
  · simp [intercalateSlash]
  · simp only [intercalateSlash]
    exact List.head?_append_of_ne_nil s hs

theorem pathClean_nonrooted (s : GoString) (segs : List GoString)
    (hs0 : s ≠ []) (hs1 : '/' ∉ s) (hs2 : s ≠ ['.']) (hs3 : s ≠ ['.', '.'])
    (h : ∀ u ∈ segs, '/' ∉ u ∧ u ≠ ['.', '.']) :
    pathClean (intercalateSlash (s :: segs))
      = intercalateSlash (s :: segs.filter keepPiece) := by
  have hne : intercalateSlash (s :: segs) ≠ [] := by
    rcases segs with _ | ⟨t, tr⟩
    · simpa [intercalateSlash] using hs0
    · simp only [intercalateSlash]
      simp [hs0]
  have hhead : ¬((intercalateSlash (s :: segs)).head? = some '/') := by
    rw [intercalateSlash_head? s hs0 segs]
    rcases s with _ | ⟨c, cs⟩
    · exact absurd rfl hs0
    · simp only [List.head?_cons, Option.some_inj]
      intro he
      subst he
      exact hs1 (List.mem_cons_self _ _)
  have hsplit : splitOnSlash (intercalateSlash (s :: segs)) = s :: segs := by
    refine splitOnSlash_intercalate (s :: segs) (by simp) ?_
    intro u hu
    rcases List.mem_cons.mp hu with hu | hu
    · simpa [hu] using hs1
    · exact (h u hu).1
  have hfold : (s :: segs).foldl (cleanStep false) [] = s :: segs.filter keepPiece := by
    have hall : ∀ u ∈ s :: segs, u ≠ ['.', '.'] := by
      intro u hu
      rcases List.mem_cons.mp hu with hu | hu
      · simpa [hu] using hs3
      · exact (h u hu).2
    have := foldl_cleanStep false (s :: segs) [] hall
    have hkeep : keepPiece s = true := by simp [keepPiece, hs0, hs2]
    simpa [List.filter_cons, hkeep] using this
  rw [pathClean, if_neg hne, if_neg hhead, hsplit, hfold,
    if_neg (by simp : ¬(s :: List.filter keepPiece segs = []))]

/-! ### The path resolver (gcsfs.go:594-614 and 679-688) -/

/-- The path-related configuration of a `GCSFs` instance: the mount
path (gcsfs.go:59, already normalized by the constructor) and the key
prefix `config.KeyPrefix`. -/
structure GCSFsCfg where
  mountPath : GoString
  keyPfx : GoString
deriving DecidableEq, Repr

/-- The first three steps of `GCSFs.GetRelativePath` (gcsfs.go:597-603):
clean the name, turn `"."` into the empty string and make the result
absolute.  Go `path.IsAbs(p)` is `len(p) > 0 && p[0] == '/'`, i.e.
`listStartsWith p "/"`. -/
def gcsCleanedAbs (name : GoString) : GoString :=
  if ¬ listStartsWith (if pathClean name = ['.'] then [] else pathClean name) ['/'] then
    '/' :: (if pathClean name = ['.'] then [] else pathClean name)
  else (if pathClean name = ['.'] then [] else pathClean name)

/-- `GCSFs.GetRelativePath` (gcsfs.go:596-614). -/
def GetRelativePath (fs : GCSFsCfg) (name : GoString) : GoString :=
  if fs.keyPfx ≠ [] then
    if fs.mountPath ≠ [] then
      goPathJoin2 fs.mountPath
        (pathClean ('/' :: goTrimPfx
          (if ¬ listStartsWith (gcsCleanedAbs name) ('/' :: fs.keyPfx) then ['/']
           else gcsCleanedAbs name) ('/' :: fs.keyPfx)))
    else
      pathClean ('/' :: goTrimPfx
        (if ¬ listStartsWith (gcsCleanedAbs name) ('/' :: fs.keyPfx) then ['/']
         else gcsCleanedAbs name) ('/' :: fs.keyPfx))
  else
    if fs.mountPath ≠ [] then goPathJoin2 fs.mountPath (gcsCleanedAbs name)
    else gcsCleanedAbs name

/-- `GCSFs.ResolvePath` (gcsfs.go:680-688). -/
def ResolvePath (fs : GCSFsCfg) (virtualPath : GoString) : GoString :=
  gcsJoin2 fs.keyPfx
    (goTrimPfx
      (if ¬ listStartsWith
            (if fs.mountPath ≠ [] then goTrimPfx virtualPath fs.mountPath else virtualPath)
            ['/'] then
        pathClean ('/' ::
          (if fs.mountPath ≠ [] then goTrimPfx virtualPath fs.mountPath else virtualPath))
       else (if fs.mountPath ≠ [] then goTrimPfx virtualPath fs.mountPath else virtualPath))
      ['/'])

example :
    GetRelativePath ⟨['/', 'm'], ['k', '/']⟩
      (ResolvePath ⟨['/', 'm'], ['k', '/']⟩ ['/', 'm', '/', 'a'])
    = ['/', 'm', '/', 'a'] := by decide
example : ResolvePath ⟨['/', 'm'], ['k', '/']⟩ ['/', 'm', '/', 'a'] = ['k', '/', 'a'] := by decide
example : ResolvePath ⟨[], []⟩ ['/'] = [] := by decide
example : GetRelativePath ⟨[], ['k', '/']⟩ ['z'] = ['/'] := by decide

/-! ### Canonical virtual paths -/

/-- A valid path segment: nonempty, slash-free, not `"."` or `".."`.
Cleaned absolute virtual paths are exactly `"/"`-joined lists of such
segments. -/
def validSeg (s : GoString) : Prop :=
  s ≠ [] ∧ '/' ∉ s ∧ s ≠ ['.'] ∧ s ≠ ['.', '.']

instance (s : GoString) : Decidable (validSeg s) := by
  unfold validSeg; infer_instance

/-- The normalized mount path built from segments (empty when the
backend is mounted at the root, as `getMountPath` produces). -/
def mountOf (msegs : List GoString) : GoString :=
  if msegs = [] then [] else '/' :: intercalateSlash msegs

/-- A normalized key prefix: empty, or segments joined by `"/"` with a
trailing `"/"` (the shape `GCSFsConfig.validate` normalizes to, per the
invariant in the spec). -/
def keyPfxOf (ksegs : List GoString) : GoString :=
  if ksegs = [] then [] else intercalateSlash ksegs ++ ['/']

/-- The cleaned absolute virtual path with the given segments. -/
def vpathOf (segs : List GoString) : GoString :=
  '/' :: intercalateSlash segs

theorem filter_keepPiece_eq_self {l : List GoString} (h : ∀ s ∈ l, validSeg s) :
    l.filter keepPiece = l := by
  refine List.filter_eq_self.mpr ?_
  intro s hs
  have := h s hs
  simp [keepPiece, this.1, this.2.2.1]

theorem pathClean_canonical_rooted {segs : List GoString} (h : ∀ s ∈ segs, validSeg s) :
    pathClean ('/' :: intercalateSlash segs) = '/' :: intercalateSlash segs := by
  rw [pathClean_rooted segs (fun s hs => ⟨(h s hs).2.1, (h s hs).2.2.2⟩),
    filter_keepPiece_eq_self h]

theorem pathClean_canonical_rel {s : GoString} {rest : List GoString}
    (hs : validSeg s) (h : ∀ u ∈ rest, validSeg u) :
    pathClean (intercalateSlash (s :: rest)) = intercalateSlash (s :: rest) := by
  rw [pathClean_nonrooted s rest hs.1 hs.2.1 hs.2.2.1 hs.2.2.2
    (fun u hu => ⟨(h u hu).2.1, (h u hu).2.2.2⟩), filter_keepPiece_eq_self h]

theorem intercalate_cons_ne_nil {s : GoString} (hs : s ≠ []) (rest : List GoString) :
    intercalateSlash (s :: rest) ≠ [] := by
  rcases rest with _ | ⟨t, tr⟩
  · simpa [intercalateSlash] using hs
  · rw [intercalateSlash_cons s (t :: tr) (by simp)]
    simp [hs]

theorem intercalate_cons_ne_dot {s : GoString} (hs : validSeg s) (rest : List GoString) :
    intercalateSlash (s :: rest) ≠ ['.'] := by
  rcases rest with _ | ⟨t, tr⟩
  · simpa [intercalateSlash] using hs.2.2.1
  · rw [intercalateSlash_cons s (t :: tr) (by simp)]
    intro he
    have h1 : (s ++ '/' :: intercalateSlash (t :: tr)).length = 1 := by rw [he]; rfl
    have h2 : 1 ≤ s.length := List.length_pos.mpr hs.1
    simp only [List.length_append, List.length_cons] at h1
    omega

theorem listStartsWith_single_iff {s : GoString} {c : Char} :
    listStartsWith s [c] = true ↔ s.head? = some c := by
  rcases s with _ | ⟨d, t⟩
  · simp [listStartsWith_iff]
  · rw [listStartsWith_iff, List.cons_prefix_cons]
    simp [eq_comm]

theorem listStartsWith_slash_of_head {s : GoString} {c : Char} (hs : s.head? = some c)
    (hc : c ≠ '/') : listStartsWith s ['/'] = false := by
  by_contra h
  have := listStartsWith_single_iff.mp (by simpa using h)
  rw [hs] at this
  exact hc (by simpa using this)

theorem intercalate_head? {s : GoString} (hs : s ≠ []) (rest : List GoString) :
    ∃ c, (intercalateSlash (s :: rest)).head? = some c ∧ c ∈ s := by
  rcases s with _ | ⟨c, cs⟩
  · exact absurd rfl hs
  · refine ⟨c, ?_, by simp⟩
    rw [intercalateSlash_head? (c :: cs) (by simp) rest]
    rfl

theorem intercalate_not_rooted {s : GoString} (hs : validSeg s) (rest : List GoString) :
    listStartsWith (intercalateSlash (s :: rest)) ['/'] = false := by
  obtain ⟨c, hc, hmem⟩ := intercalate_head? hs.1 rest
  exact listStartsWith_slash_of_head hc (fun he => hs.2.1 (he ▸ hmem))


theorem keyPfxOf_nil : keyPfxOf [] = [] := rfl

theorem keyPfxOf_cons (k : GoString) (ks : List GoString) :
    keyPfxOf (k :: ks) = intercalateSlash (k :: ks) ++ ['/'] := by
  simp [keyPfxOf]

theorem keepPiece_nil : keepPiece [] = false := by decide

theorem goPathJoin2_nil_of_ne {b : GoString} (hb : b ≠ []) :
    goPathJoin2 [] b = pathClean b := by
  simp [goPathJoin2, hb]

theorem goPathJoin2_of_left_ne {a : GoString} (b : GoString) (ha : a ≠ []) :
    goPathJoin2 a b = pathClean (a ++ '/' :: b) := by
  simp [goPathJoin2, ha]

theorem validSub₁ {k : GoString} {ks : List GoString} (h : ∀ s ∈ k :: ks, validSeg s) :
    ∀ u ∈ ks, validSeg u :=
  fun u hu => h u (List.mem_cons_of_mem k hu)

theorem gcsJoin2_canonical : ∀ (ksegs rsegs : List GoString),
    (∀ s ∈ ksegs, validSeg s) → (∀ s ∈ rsegs, validSeg s) →
    gcsJoin2 (keyPfxOf ksegs) (intercalateSlash rsegs)
      = intercalateSlash (ksegs ++ rsegs)
  | [], [], _, _ => by decide
  | [], r :: rs, _, hr => by
    have hrr : validSeg r := hr r (by simp)
    have hb := pathClean_canonical_rel hrr (validSub₁ hr)
    have hbne := intercalate_cons_ne_nil hrr.1 rs
    rw [keyPfxOf_nil]
    unfold gcsJoin2
    rw [goPathJoin2_nil_of_ne hbne, hb, List.nil_append]
    exact goTrimPfx_of_not (intercalate_not_rooted hrr rs)
  | k :: ks, [], hk, _ => by
    have hkk : validSeg k := hk k (by simp)
    have hks := validSub₁ hk
    unfold gcsJoin2
    rw [keyPfxOf_cons, goPathJoin2_of_left_ne _ (by simp)]
    have hshape : (intercalateSlash (k :: ks) ++ ['/']) ++ '/' :: intercalateSlash []
        = intercalateSlash (k :: (ks ++ [[], []])) := by
      rw [show (k :: (ks ++ [[], []])) = (k :: ks) ++ [[], []] by simp,
        intercalateSlash_append (k :: ks) [[], []] (by simp) (by simp)]
      simp [intercalateSlash]
    have hclean := pathClean_nonrooted k (ks ++ [[], []]) hkk.1 hkk.2.1 hkk.2.2.1 hkk.2.2.2
      (by
        intro u hu
        rcases List.mem_append.mp hu with hu | hu
        · exact ⟨(hks u hu).2.1, (hks u hu).2.2.2⟩
        · rcases List.mem_cons.mp hu with hu | hu
          · simp [hu]
          · simp at hu
            simp [hu])
    have hfilter : (ks ++ [[], []]).filter keepPiece = ks := by
      rw [List.filter_append, filter_keepPiece_eq_self hks]
      simp [List.filter_cons, keepPiece_nil]
    rw [hshape, hclean, hfilter, List.append_nil]
    exact goTrimPfx_of_not (intercalate_not_rooted hkk ks)
  | k :: ks, r :: rs, hk, hr => by
    have hkk : validSeg k := hk k (by simp)
    have hks := validSub₁ hk
    have hrr : validSeg r := hr r (by simp)
    have hrs := validSub₁ hr
    unfold gcsJoin2
    rw [keyPfxOf_cons, goPathJoin2_of_left_ne _ (by simp)]
    have hshape : (intercalateSlash (k :: ks) ++ ['/']) ++ '/' :: intercalateSlash (r :: rs)
        = intercalateSlash (k :: (ks ++ [] :: r :: rs)) := by
      rw [show (k :: (ks ++ [] :: r :: rs)) = (k :: ks) ++ ([] :: r :: rs) by simp,
        intercalateSlash_append (k :: ks) ([] :: r :: rs) (by simp) (by simp),
        intercalateSlash_cons [] (r :: rs) (by simp)]
      simp
    have hclean := pathClean_nonrooted k (ks ++ [] :: r :: rs) hkk.1 hkk.2.1 hkk.2.2.1
      hkk.2.2.2
      (by
        intro u hu
        rcases List.mem_append.mp hu with hu | hu
        · exact ⟨(hks u hu).2.1, (hks u hu).2.2.2⟩
        · rcases List.mem_cons.mp hu with hu | hu
          · simp [hu]
          · exact ⟨(hr u hu).2.1, (hr u hu).2.2.2⟩)
    have hfilter : (ks ++ [] :: r :: rs).filter keepPiece = ks ++ r :: rs := by
      rw [List.filter_append, filter_keepPiece_eq_self hks]
      have h2 : ([] :: r :: rs).filter keepPiece = r :: rs := by
        rw [show (([] : GoString) :: r :: rs).filter keepPiece = (r :: rs).filter keepPiece by
          simp [List.filter_cons, keepPiece_nil]]
        refine filter_keepPiece_eq_self ?_
        intro u hu
        rcases List.mem_cons.mp hu with hu | hu
        · simpa [hu] using hrr
        · exact hrs u hu
      rw [h2]
    rw [hshape, hclean, hfilter,
      show (k :: (ks ++ r :: rs)) = (k :: ks) ++ (r :: rs) by simp]
    exact goTrimPfx_of_not (intercalate_not_rooted hkk (ks ++ r :: rs))

theorem mountOf_nil : mountOf [] = [] := rfl

theorem mountOf_cons (m : GoString) (ms : List GoString) :
    mountOf (m :: ms) = '/' :: intercalateSlash (m :: ms) := by
  simp [mountOf]

theorem listStartsWith_slash_cons (x : GoString) : listStartsWith ('/' :: x) ['/'] = true :=
  listStartsWith_single_iff.mpr rfl

theorem goTrimPfx_slash_cons (x : GoString) : goTrimPfx ('/' :: x) ['/'] = x := by
  simpa using goTrimPfx_append_self ['/'] x

theorem goTrimPfx_self (a : GoString) : goTrimPfx a a = [] := by
  simpa using goTrimPfx_append_self a []

theorem ResolvePath_canonical (msegs ksegs rsegs : List GoString)
    (hm : ∀ s ∈ msegs, validSeg s) (hk : ∀ s ∈ ksegs, validSeg s)
    (hr : ∀ s ∈ rsegs, validSeg s) :
    ResolvePath ⟨mountOf msegs, keyPfxOf ksegs⟩ (vpathOf (msegs ++ rsegs))
      = intercalateSlash (ksegs ++ rsegs) := by
  rcases msegs with _ | ⟨m, ms⟩
  · simp only [ResolvePath, mountOf_nil, vpathOf, List.nil_append, ne_eq,
      not_true_eq_false, if_neg (by simp : ¬(([] : GoString) ≠ [])),
      listStartsWith_slash_cons, Bool.not_true, if_neg (by simp : ¬(False : Prop))]
    rw [goTrimPfx_slash_cons]
    exact gcsJoin2_canonical ksegs rsegs hk hr
  · have hmne : mountOf (m :: ms) ≠ [] := by rw [mountOf_cons]; simp
    rcases rsegs with _ | ⟨r, rs⟩
    · have hp : vpathOf ((m :: ms) ++ []) = mountOf (m :: ms) := by
        rw [List.append_nil, mountOf_cons, vpathOf]
      have htrim : goTrimPfx (vpathOf ((m :: ms) ++ [])) (mountOf (m :: ms)) = [] := by
        rw [hp]; exact goTrimPfx_self _
      simp only [ResolvePath, if_pos hmne, htrim,
        show listStartsWith [] ['/'] = false by decide]
      convert gcsJoin2_canonical ksegs [] hk (by simp) using 2
    · have hp : vpathOf ((m :: ms) ++ (r :: rs))
          = mountOf (m :: ms) ++ '/' :: intercalateSlash (r :: rs) := by
        rw [mountOf_cons, vpathOf,
          intercalateSlash_append (m :: ms) (r :: rs) (by simp) (by simp)]
        rfl
      have htrim : goTrimPfx (vpathOf ((m :: ms) ++ (r :: rs))) (mountOf (m :: ms))
          = '/' :: intercalateSlash (r :: rs) := by
        rw [hp]; exact goTrimPfx_append_self _ _
      simp only [ResolvePath, if_pos hmne, htrim, listStartsWith_slash_cons]
      rw [if_neg (by simp : ¬¬True), goTrimPfx_slash_cons]
      exact gcsJoin2_canonical ksegs (r :: rs) hk hr

theorem gcsCleanedAbs_canonical : ∀ (l : List GoString), (∀ s ∈ l, validSeg s) →
    gcsCleanedAbs (intercalateSlash l) = '/' :: intercalateSlash l
  | [], _ => by decide
  | s :: rest, h => by
    have hss : validSeg s := h s (by simp)
    have hclean := pathClean_canonical_rel hss (validSub₁ h)
    have hdot := intercalate_cons_ne_dot hss rest
    have hsw := intercalate_not_rooted hss rest
    simp only [gcsCleanedAbs, hclean, if_neg hdot, hsw]
    rw [if_pos (by simp : ¬false = true)]

theorem mountJoin_canonical (m : GoString) (ms rsegs : List GoString)
    (hm : ∀ s ∈ m :: ms, validSeg s) (hr : ∀ s ∈ rsegs, validSeg s) :
    goPathJoin2 (mountOf (m :: ms)) ('/' :: intercalateSlash rsegs)
      = vpathOf ((m :: ms) ++ rsegs) := by
  rw [mountOf_cons, goPathJoin2_of_left_ne _ (by simp)]
  have hmm : validSeg m := hm m (by simp)
  have hms := validSub₁ hm
  rcases rsegs with _ | ⟨r, rs⟩
  · have hshape : ('/' :: intercalateSlash (m :: ms)) ++ '/' :: '/' :: intercalateSlash []
        = '/' :: intercalateSlash ((m :: ms) ++ [[], []]) := by
      rw [intercalateSlash_append (m :: ms) [[], []] (by simp) (by simp)]
      simp [intercalateSlash]
    have hpieces : ∀ u ∈ (m :: ms) ++ [[], []], '/' ∉ u ∧ u ≠ ['.', '.'] := by
      intro u hu
      rcases List.mem_append.mp hu with hu | hu
      · exact ⟨(hm u hu).2.1, (hm u hu).2.2.2⟩
      · simp at hu
        simp [hu]
    have hfilter : ((m :: ms) ++ [[], []]).filter keepPiece = m :: ms := by
      rw [List.filter_append, filter_keepPiece_eq_self hm]
      simp [List.filter_cons, keepPiece_nil]
    rw [show ('/' :: intercalateSlash (m :: ms)) ++ '/' :: '/' :: intercalateSlash []
        = '/' :: (intercalateSlash (m :: ms) ++ '/' :: '/' :: intercalateSlash []) from rfl]
    rw [show intercalateSlash (m :: ms) ++ '/' :: '/' :: intercalateSlash []
        = intercalateSlash ((m :: ms) ++ [[], []]) by
      rw [intercalateSlash_append (m :: ms) [[], []] (by simp) (by simp)]
      simp [intercalateSlash]]
    rw [pathClean_rooted _ hpieces, hfilter, vpathOf, List.append_nil]
  · have hpieces : ∀ u ∈ (m :: ms) ++ [] :: r :: rs, '/' ∉ u ∧ u ≠ ['.', '.'] := by
      intro u hu
      rcases List.mem_append.mp hu with hu | hu
      · exact ⟨(hm u hu).2.1, (hm u hu).2.2.2⟩
      · rcases List.mem_cons.mp hu with hu | hu
        · simp [hu]
        · exact ⟨(hr u hu).2.1, (hr u hu).2.2.2⟩
    have hfilter : ((m :: ms) ++ [] :: r :: rs).filter keepPiece = (m :: ms) ++ r :: rs := by
      rw [List.filter_append, filter_keepPiece_eq_self hm]
      rw [show (([] : GoString) :: r :: rs).filter keepPiece = (r :: rs).filter keepPiece by
        simp [List.filter_cons, keepPiece_nil]]
      rw [filter_keepPiece_eq_self hr]
    rw [show ('/' :: intercalateSlash (m :: ms)) ++ '/' :: '/' :: intercalateSlash (r :: rs)
        = '/' :: (intercalateSlash (m :: ms) ++ '/' :: '/' :: intercalateSlash (r :: rs)) from rfl]
    rw [show intercalateSlash (m :: ms) ++ '/' :: '/' :: intercalateSlash (r :: rs)
        = intercalateSlash ((m :: ms) ++ [] :: r :: rs) by
      rw [intercalateSlash_append (m :: ms) ([] :: r :: rs) (by simp) (by simp),
        intercalateSlash_cons [] (r :: rs) (by simp)]
      simp]
    rw [pathClean_rooted _ hpieces, hfilter, vpathOf]

theorem clean_mid_canonical (k : GoString) (ks rsegs : List GoString)
    (hk : ∀ s ∈ k :: ks, validSeg s) (hr : ∀ s ∈ rsegs, validSeg s) :
    pathClean ('/' :: goTrimPfx
      (if ¬ listStartsWith (gcsCleanedAbs (intercalateSlash ((k :: ks) ++ rsegs)))
            ('/' :: keyPfxOf (k :: ks)) then ['/']
       else gcsCleanedAbs (intercalateSlash ((k :: ks) ++ rsegs)))
      ('/' :: keyPfxOf (k :: ks)))
    = '/' :: intercalateSlash rsegs := by
  have habs := gcsCleanedAbs_canonical ((k :: ks) ++ rsegs)
    (by
      intro u hu
      rcases List.mem_append.mp hu with hu | hu
      · exact hk u hu
      · exact hr u hu)
  rcases rsegs with _ | ⟨r, rs⟩
  · simp only [List.append_nil] at habs ⊢
    have hlen : ('/' :: intercalateSlash (k :: ks)).length
        < ('/' :: keyPfxOf (k :: ks)).length := by
      rw [keyPfxOf_cons]
      simp
    have hsw := listStartsWith_of_long hlen
    rw [habs, hsw]
    rw [if_pos (by simp : ¬false = true)]
    have hlen2 : (['/'] : GoString).length < ('/' :: keyPfxOf (k :: ks)).length := by
      rw [keyPfxOf_cons]
      simp
    rw [goTrimPfx_of_not (listStartsWith_of_long hlen2)]
    decide
  · have hshape : ('/' :: intercalateSlash ((k :: ks) ++ (r :: rs)))
        = ('/' :: keyPfxOf (k :: ks)) ++ intercalateSlash (r :: rs) := by
      rw [keyPfxOf_cons, intercalateSlash_append (k :: ks) (r :: rs) (by simp) (by simp)]
      simp
    have hsw : listStartsWith (gcsCleanedAbs (intercalateSlash ((k :: ks) ++ (r :: rs))))
        ('/' :: keyPfxOf (k :: ks)) = true := by
      rw [habs, hshape]
      exact listStartsWith_append_self _ _
    rw [hsw, if_neg (by simp : ¬¬(true = true)), habs, hshape, goTrimPfx_append_self]
    exact pathClean_canonical_rooted hr

theorem GetRelativePath_canonical (msegs ksegs rsegs : List GoString)
    (hm : ∀ s ∈ msegs, validSeg s) (hk : ∀ s ∈ ksegs, validSeg s)
    (hr : ∀ s ∈ rsegs, validSeg s) :
    GetRelativePath ⟨mountOf msegs, keyPfxOf ksegs⟩ (intercalateSlash (ksegs ++ rsegs))
      = vpathOf (msegs ++ rsegs) := by
  rcases ksegs with _ | ⟨k, ks⟩
  · rcases msegs with _ | ⟨m, ms⟩
    · simp only [GetRelativePath, keyPfxOf_nil, mountOf_nil, List.nil_append]
      simp [gcsCleanedAbs_canonical rsegs hr, vpathOf]
    · have hmne : mountOf (m :: ms) ≠ [] := by rw [mountOf_cons]; simp
      simp only [GetRelativePath, keyPfxOf_nil, List.nil_append]
      rw [gcsCleanedAbs_canonical rsegs hr]
      simp only [ne_eq, not_true_eq_false, if_neg (by simp : ¬¬(([] : GoString) = [])),
        if_pos hmne]
      exact mountJoin_canonical m ms rsegs hm hr
  · have hkne : keyPfxOf (k :: ks) ≠ [] := by rw [keyPfxOf_cons]; simp
    rcases msegs with _ | ⟨m, ms⟩
    · simp only [GetRelativePath, mountOf_nil, if_pos hkne,
        if_neg (by simp : ¬¬(([] : GoString) = []))]
      rw [clean_mid_canonical k ks rsegs hk hr, vpathOf, List.nil_append]
    · have hmne : mountOf (m :: ms) ≠ [] := by rw [mountOf_cons]; simp
      simp only [GetRelativePath, if_pos hkne, if_pos hmne]
      rw [clean_mid_canonical k ks rsegs hk hr]
      exact mountJoin_canonical m ms rsegs hm hr

/-- C1: for every virtual path under this backend's mount path (a
cleaned absolute path extending the mount segments), relativizing the
resolved backend key gives back the cleaned path:
`GetRelativePath (ResolvePath p) = pathClean p` (and such a `p` is a
fixed point of `pathClean`); and for every name whose cleaned absolute
form does not fall under the key prefix, `GetRelativePath` normalizes
it to this backend's root (`"/"`, joined onto the mount path when one
is configured) instead of a path outside the backend's namespace. -/
theorem claim_C1 :
    (∀ msegs ksegs rsegs : List GoString,
      (∀ s ∈ msegs ++ ksegs ++ rsegs, validSeg s) →
      GetRelativePath ⟨mountOf msegs, keyPfxOf ksegs⟩
          (ResolvePath ⟨mountOf msegs, keyPfxOf ksegs⟩ (vpathOf (msegs ++ rsegs)))
        = pathClean (vpathOf (msegs ++ rsegs))
      ∧ pathClean (vpathOf (msegs ++ rsegs)) = vpathOf (msegs ++ rsegs))
    ∧ (∀ (msegs ksegs : List GoString) (name : GoString),
      (∀ s ∈ msegs ++ ksegs, validSeg s) → ksegs ≠ [] →
      listStartsWith (gcsCleanedAbs name) ('/' :: keyPfxOf ksegs) = false →
      GetRelativePath ⟨mountOf msegs, keyPfxOf ksegs⟩ name
        = (if msegs = [] then ['/'] else mountOf msegs)) := by
  constructor
  · intro msegs ksegs rsegs hall
    have hm : ∀ s ∈ msegs, validSeg s := fun s hs => hall s (by simp [hs])
    have hk : ∀ s ∈ ksegs, validSeg s := fun s hs => hall s (by simp [hs])
    have hr : ∀ s ∈ rsegs, validSeg s := fun s hs => hall s (by simp [hs])
    have hfix : pathClean (vpathOf (msegs ++ rsegs)) = vpathOf (msegs ++ rsegs) := by
      rw [vpathOf]
      exact pathClean_canonical_rooted (by
        intro s hs
        rcases List.mem_append.mp hs with hs | hs
        · exact hm s hs
        · exact hr s hs)
    refine ⟨?_, hfix⟩
    rw [ResolvePath_canonical msegs ksegs rsegs hm hk hr,
      GetRelativePath_canonical msegs ksegs rsegs hm hk hr, hfix]
  · intro msegs ksegs name hall hkne hsw
    rcases ksegs with _ | ⟨k, ks⟩
    · exact absurd rfl hkne
    · have hkpne : keyPfxOf (k :: ks) ≠ [] := by rw [keyPfxOf_cons]; simp
      have hlen2 : (['/'] : GoString).length < ('/' :: keyPfxOf (k :: ks)).length := by
        rw [keyPfxOf_cons]
        simp
      have hmid : pathClean ('/' :: goTrimPfx
          (if ¬ listStartsWith (gcsCleanedAbs name) ('/' :: keyPfxOf (k :: ks)) then ['/']
           else gcsCleanedAbs name) ('/' :: keyPfxOf (k :: ks))) = ['/'] := by
        rw [hsw, if_pos (by simp : ¬false = true),
          goTrimPfx_of_not (listStartsWith_of_long hlen2)]
        decide
      rcases msegs with _ | ⟨m, ms⟩
      · simp only [GetRelativePath, mountOf_nil, if_pos hkpne,
          if_neg (by simp : ¬¬(([] : GoString) = []))]
        rw [hmid]
        simp
      · have hmne : mountOf (m :: ms) ≠ [] := by rw [mountOf_cons]; simp
        have hmv : ∀ s ∈ m :: ms, validSeg s :=
          fun s hs => hall s (List.mem_append.mpr (Or.inl hs))
        simp only [GetRelativePath, if_pos hkpne, if_pos hmne]
        rw [hmid]
        rw [show (['/'] : GoString) = '/' :: intercalateSlash [] from rfl]
        rw [mountJoin_canonical m ms [] hmv (by simp)]
        rw [vpathOf, List.append_nil, if_neg (by simp : ¬(m :: ms = [])), mountOf_cons]

theorem claim_C1_witness :
    (GetRelativePath ⟨['/', 'm'], ['k', '/']⟩
        (ResolvePath ⟨['/', 'm'], ['k', '/']⟩ ['/', 'm', '/', 'a'])
      = pathClean ['/', 'm', '/', 'a']
     ∧ pathClean ['/', 'm', '/', 'a'] = ['/', 'm', '/', 'a'])
    ∧ GetRelativePath ⟨['/', 'm'], ['k', '/']⟩ ['/', 'z'] = ['/', 'm'] :=
  ⟨claim_C1.1 [['m']] [['k']] [['a']] (by decide),
   claim_C1.2 [['m']] [['k']] ['/', 'z'] (by decide) (by decide) (by decide)⟩

/-! ### The object-store backend model -/

/-- The fields of `storage.ObjectAttrs` the adapter reads: the object
key (`Name`), the delimiter-collapsed prefix (`Prefix`, nonempty only
on synthetic listing entries), size, content type, content encoding,
the tombstone flag (`deleted` is true exactly when the `Deleted`
timestamp is non-zero) and the update time (as an abstract instant). -/
structure ObjectAttrs where
  name : GoString
  pfx : GoString := []
  size : Int := 0
  contentType : GoString := []
  contentEncoding : GoString := []
  deleted : Bool := false
  updated : Int := 0
deriving DecidableEq, Repr

/-- Modelled from the spec: the `vfs.FileInfo` value every listing and
stat operation produces (name, isDirectory flag, size, modification
time; the symlink flag is always false for this backend).  Its
constructor `NewFileInfo` lives outside this slice of the repository. -/
structure FileInfo where
  name : GoString
  isDir : Bool
  size : Int
  modTime : Int
deriving DecidableEq, Repr

/-- Modelled from the spec: `vfs.NewFileInfo`. -/
def NewFileInfo (name : GoString) (isDir : Bool) (size : Int) (modTime : Int) : FileInfo :=
  ⟨name, isDir, size, modTime⟩

/-- Modelled from the spec: the `vfs.dirMimeType` constant, the fixed
content type that marks explicit directory objects. -/
def dirMimeType : GoString :=
  ['i', 'n', 'o', 'd', 'e', '/', 'd', 'i', 'r', 'e', 'c', 't', 'o', 'r', 'y']

/-- The classified errors this adapter can produce (section 7 of the
spec): not-found, precondition failure, non-empty directory,
range-read-unsupported, plus a fuel marker for the recursion bound of
the embedded recursive rename. -/
inductive GErr where
  | notFound
  | preconditionFailed
  | nonEmptyDir (name : GoString)
  | rangeGzip (offset : Int)
  | fuelOut
deriving DecidableEq, Repr

/-- The write/delete precondition attached to a backend call
(generation-match, must-not-exist, or none when the precondition
lookup failed for a reason other than not-found). -/
inductive Precond where
  | genMatch
  | mustNotExist
  | noCond
deriving DecidableEq, Repr

/-- A backend RPC, as recorded in the trace of issued calls. -/
inductive BackendOp where
  | headOp (name : GoString)
  | listOp (pfx : GoString)
  | copyOp (source target : GoString) (pre : Precond)
  | deleteOp (name : GoString) (pre : Precond)
  | putOp (name : GoString) (pre : Precond)
deriving DecidableEq, Repr

/-- The modelled world the adapter acts on: the bucket contents (in
listing order, keys unique), the Metadata Overlay records (absolute
virtual path, milliseconds), whether an overlay plugin is configured
(`plugin.Handler.HasMetadater()`), and the trace of backend RPCs
issued so far. -/
structure FsState where
  store : List ObjectAttrs
  overlay : List (GoString × Int)
  hasMetadater : Bool
  trace : List BackendOp
deriving DecidableEq, Repr

/-- Look up the object with the given key. -/
def findObject (store : List ObjectAttrs) (name : GoString) : Option ObjectAttrs :=
  store.find? (fun o => o.name = name)

/-- Remove the object with the given key. -/
def storeErase (store : List ObjectAttrs) (name : GoString) : List ObjectAttrs :=
  store.filter (fun o => ¬(o.name = name))

/-- Modelled from the spec: `ensureAbsPath`, which prepends `"/"` to a
relative name (the helper lives outside this slice). -/
def ensureAbsPath (name : GoString) : GoString :=
  if listStartsWith name ['/'] then name else '/' :: name

/-- Look up a Metadata Overlay record. -/
def overlayLookup (ov : List (GoString × Int)) (key : GoString) : Option Int :=
  (ov.find? (fun e => e.1 = key)).map (fun e => e.2)

/-- Store a Metadata Overlay record (`SetModificationTime`). -/
def overlaySet (ov : List (GoString × Int)) (key : GoString) (t : Int) :
    List (GoString × Int) :=
  ov.filter (fun e => ¬(e.1 = key)) ++ [(key, t)]

/-- Drop a Metadata Overlay record (`RemoveMetadata`). -/
def overlayRemove (ov : List (GoString × Int)) (key : GoString) : List (GoString × Int) :=
  ov.filter (fun e => ¬(e.1 = key))

/-- `GCSFs.IsNotExist` (gcsfs.go:425-438) on the modelled errors. -/
def gcsIsNotExist : GErr → Bool
  | .notFound => true
  | _ => false

/-- `GCSFs.headObject` (gcsfs.go:881-890): a head call on the bucket,
answering from the modelled store. -/
def headObject (s : FsState) (name : GoString) : Except GErr ObjectAttrs × FsState :=
  let s₁ : FsState := { s with trace := s.trace ++ [.headOp name] }
  match findObject s.store name with
  | some a => (.ok a, s₁)
  | none => (.error .notFound, s₁)

/-- `GCSFs.getPrefix` (gcsfs.go:870-879). -/
def getPfx (name : GoString) : GoString :=
  if name ≠ [] ∧ name ≠ ['.'] ∧ name ≠ ['/'] then
    if ¬ listEndsWith (goTrimPfx name ['/']) ['/'] then goTrimPfx name ['/'] ++ ['/']
    else goTrimPfx name ['/']
  else []

/-- `GCSFs.resolve` (gcsfs.go:695-705): strip the listing prefix, mark
trailing-slash keys and directory-content-type entries as directories. -/
def resolve (name pfx contentType : GoString) : GoString × Bool :=
  let result := goTrimPfx name pfx
  let isDir := listEndsWith result ['/']
  let result₂ := if isDir then goTrimSfx result ['/'] else result
  (result₂, if contentType = dirMimeType then true else isDir)

/-- The pure content of `GCSFs.hasContents` (gcsfs.go:833-868): the
first page (page size 2) of the non-delimited listing under the
prefix, with entries resolving to `""` or `"/"` skipped. -/
def hasContentsB (store : List ObjectAttrs) (name : GoString) : Bool :=
  ((store.filter (fun o => listStartsWith o.name (getPfx name))).take 2).any
    (fun a =>
      ¬((resolve a.name (getPfx name) a.contentType).1 = ['/']
        ∨ (resolve a.name (getPfx name) a.contentType).1 = []))

/-- `GCSFs.hasContents`, with the listing call traced. -/
def hasContents (s : FsState) (name : GoString) : Except GErr Bool × FsState :=
  (.ok (hasContentsB s.store name), { s with trace := s.trace ++ [.listOp (getPfx name)] })

example : getPfx ['a'] = ['a', '/'] := by decide
example : getPfx ['/', 'a', '/'] = ['a', '/'] := by decide
example : getPfx ['/'] = [] := by decide
example : resolve ['a', '/', 'b', '/'] ['a', '/'] [] = (['b'], true) := by decide
example : hasContentsB [{ name := ['a', '/', 'x'] }] ['a'] = true := by decide
example : hasContentsB [{ name := ['a', '/', '/'] }] ['a'] = false := by decide

/-- Modelled from the spec: `updateFileInfoModTime` (outside this
slice) — when a Metadata Overlay is present it replaces a file's
modification time with the recorded one; directories and backends
without an overlay are left untouched. -/
def updateFileInfoModTime (s : FsState) (name : GoString) (info : FileInfo) : FileInfo :=
  if ¬ s.hasMetadater then info
  else if info.isDir then info
  else
    match overlayLookup s.overlay (ensureAbsPath name) with
    | some t => { info with modTime := t }
    | none => info

/-- `GCSFs.getObjectStat` (gcsfs.go:708-733): head the exact key; on
not-found check for a virtual directory (bounded listing); finally
head the `name+"/"` marker. -/
def getObjectStat (s : FsState) (name : GoString) : Except GErr FileInfo × FsState :=
  match headObject s name with
  | (.ok attrs, s₁) =>
    (.ok (updateFileInfoModTime s₁ name (NewFileInfo name
      (attrs.contentType = dirMimeType ∨ listEndsWith attrs.name ['/'])
      attrs.size attrs.updated)), s₁)
  | (.error e, s₁) =>
    if ¬ gcsIsNotExist e then (.error e, s₁)
    else
      match hasContents s₁ name with
      | (.error e₂, s₂) => (.error e₂, s₂)
      | (.ok true, s₂) =>
        (.ok (updateFileInfoModTime s₂ name (NewFileInfo name true 0 0)), s₂)
      | (.ok false, s₂) =>
        match headObject s₂ (name ++ ['/']) with
        | (.error e₃, s₃) => (.error e₃, s₃)
        | (.ok attrs, s₃) =>
          (.ok (updateFileInfoModTime s₃ name (NewFileInfo name true attrs.size
            attrs.updated)), s₃)

/-- `GCSFs.Stat` (gcsfs.go:116-124). -/
def Stat (fs : GCSFsCfg) (s : FsState) (name : GoString) :
    Except GErr FileInfo × FsState :=
  if name = [] ∨ name = ['/'] ∨ name = ['.'] then
    (.ok (updateFileInfoModTime s name (NewFileInfo name true 0 0)), s)
  else if fs.keyPfx = name ++ ['/'] then
    (.ok (updateFileInfoModTime s name (NewFileInfo name true 0 0)), s)
  else getObjectStat s name

/-- Append a trailing `"/"` to a name that lacks one (the marker-key
normalization shared by `mkdirInternal` and `Remove`). -/
def dirMarkerName (name : GoString) : GoString :=
  if ¬ listEndsWith name ['/'] then name ++ ['/'] else name

/-- `GCSFs.mkdirInternal` (gcsfs.go:822-831): append `"/"` when
missing and issue a must-not-exist create of the marker object
(`Create(name, -1)`, whose precondition failure surfaces at close). -/
def mkdirInternal (s : FsState) (name : GoString) : Option GErr × FsState :=
  let s₁ : FsState := { s with
    trace := s.trace ++ [.putOp (dirMarkerName name) .mustNotExist] }
  match findObject s.store (dirMarkerName name) with
  | some _ => (some .preconditionFailed, s₁)
  | none =>
    (none, { s₁ with store := s₁.store ++
      [{ name := dirMarkerName name, size := 0, contentType := dirMimeType }] })

/-- One conditional delete call, with the chosen precondition traced. -/
def deleteObject (s : FsState) (name : GoString) (pre : Precond) :
    Option GErr × FsState :=
  let s₁ : FsState := { s with trace := s.trace ++ [.deleteOp name pre] }
  match findObject s.store name with
  | some _ => (none, { s₁ with store := storeErase s₁.store name })
  | none => (some .notFound, s₁)

/-- `GCSFs.Remove` (gcsfs.go:238-275): for directories refuse when the
bounded listing finds content and delete the trailing-slash marker,
falling back to the slash-less legacy key on not-found; the delete
precondition is a generation match when the preceding head succeeded;
on a successful file delete the Metadata Overlay record is dropped. -/
def Remove (s : FsState) (name : GoString) (isDir : Bool) : Option GErr × FsState :=
  match (if isDir then
           match hasContents s name with
           | (.error e, s₁) => (some e, s₁)
           | (.ok true, s₁) => (some (.nonEmptyDir name), s₁)
           | (.ok false, s₁) => (none, s₁)
         else (none, s) : Option GErr × FsState) with
  | (some e, s₁) => (some e, s₁)
  | (none, s₁) =>
    let key := if isDir ∧ ¬ listEndsWith name ['/'] then name ++ ['/'] else name
    let headRes := headObject s₁ key
    let pre : Precond := match headRes.1 with
      | .ok _ => .genMatch
      | .error _ => .noCond
    let delRes := deleteObject headRes.2 key pre
    let delRes₂ : Option GErr × FsState :=
      match delRes.1 with
      | some e =>
        if isDir ∧ gcsIsNotExist e then deleteObject delRes.2 (goTrimSfx key ['/']) .noCond
        else delRes
      | none => delRes
    match delRes₂.1 with
    | none =>
      if delRes₂.2.hasMetadater ∧ ¬ isDir then
        (none, { delRes₂.2 with
          overlay := overlayRemove delRes₂.2.overlay (ensureAbsPath name) })
      else (none, delRes₂.2)
    | some e => (some e, delRes₂.2)

/-- The tail of `GCSFs.renameInternal` (gcsfs.go:815-818): remove the
source and convert a not-found error into success. -/
def renameRemoveSource (s : FsState) (source : GoString) (isDir : Bool) :
    Option GErr × FsState :=
  match Remove s source isDir with
  | (some e, s₁) => (if gcsIsNotExist e then none else some e, s₁)
  | (none, s₁) => (none, s₁)

/-- Modelled from the spec: the extension-derived content type
(`mime.TypeByExtension`); modelled as unknown (empty), in which case
the server-side copy keeps the source object's content type. -/
def mimeTypeByExtension (_name : GoString) : GoString := []

/-- `GCSFs.copyFileInternal` (gcsfs.go:735-765): head the target to
pick the destination precondition (generation-match when it exists,
must-not-exist otherwise), then run the server-side copy. -/
def copyFileInternal (s : FsState) (source target : GoString) : Option GErr × FsState :=
  let headRes := headObject s target
  let pre : Precond := match headRes.1 with
    | .ok _ => .genMatch
    | .error e => if gcsIsNotExist e then .mustNotExist else .noCond
  let s₁ : FsState := { headRes.2 with
    trace := headRes.2.trace ++ [.copyOp source target pre] }
  match findObject s₁.store source with
  | none => (some .notFound, s₁)
  | some src =>
    let ct := mimeTypeByExtension source
    (none, { s₁ with store := storeErase s₁.store target ++
      [{ src with name := target,
                  contentType := if ct ≠ [] then ct else src.contentType }] })

/-- Take up to and including the first `'/'` of a string (used to form
a delimiter-collapsed listing prefix). -/
def upToSlash : GoString → GoString
  | [] => []
  | c :: cs => if c = '/' then ['/'] else c :: upToSlash cs

/-- Modelled from the spec: the object-store listing with a `"/"`
delimiter (the external service side of `storage.Query`): every object
under the prefix whose remaining key contains the delimiter is
collapsed into a synthetic prefix entry, reported once; the others are
returned directly. -/
def delimitedList (store : List ObjectAttrs) (pfx : GoString) : List ObjectAttrs :=
  go (store.filter (fun o => listStartsWith o.name pfx)) []
where
  go : List ObjectAttrs → List GoString → List ObjectAttrs
    | [], _ => []
    | o :: rest, seen =>
      if '/' ∈ goTrimPfx o.name pfx then
        if (pfx ++ upToSlash (goTrimPfx o.name pfx)) ∈ seen then go rest seen
        else { name := [], pfx := pfx ++ upToSlash (goTrimPfx o.name pfx) }
          :: go rest ((pfx ++ upToSlash (goTrimPfx o.name pfx)) :: seen)
      else o :: go rest seen

/-- Cut a listing into pager pages of `defaultGCSPageSize = 5000`
entries (gcsfs.go:47); the fuel argument (instantiated with the list
length, which always suffices) keeps the recursion structural. -/
def chunkPagesGo : Nat → List ObjectAttrs → List (List ObjectAttrs)
  | _, [] => []
  | 0, l => [l]
  | n + 1, a :: rest => ((a :: rest).take 5000) :: chunkPagesGo n ((a :: rest).drop 5000)

/-- Cut a listing into pager pages of `defaultGCSPageSize` entries. -/
def chunkPages (l : List ObjectAttrs) : List (List ObjectAttrs) :=
  chunkPagesGo l.length l

/-- The per-entry step of the `GCSFs.ReadDir` page loop
(gcsfs.go:366-398): prefix entries become virtual directories,
de-duplicated through the `prefixes` set; direct entries skip
tombstones, and directory entries de-duplicate against the same set;
the Metadata Overlay's folder times override the modification time. -/
def readDirStep (modT : GoString → Option Int) (pfx : GoString)
    (acc : List FileInfo × List GoString) (attrs : ObjectAttrs) :
    List FileInfo × List GoString :=
  if attrs.pfx ≠ [] then
    if (resolve attrs.pfx pfx attrs.contentType).1 = [] then acc
    else if (resolve attrs.pfx pfx attrs.contentType).1 ∈ acc.2 then acc
    else (acc.1 ++ [NewFileInfo (resolve attrs.pfx pfx attrs.contentType).1 true 0 0],
      (resolve attrs.pfx pfx attrs.contentType).1 :: acc.2)
  else
    if (resolve attrs.name pfx attrs.contentType).1 = [] then acc
    else if attrs.deleted then acc
    else if (resolve attrs.name pfx attrs.contentType).2
        ∧ (resolve attrs.name pfx attrs.contentType).1 ∈ acc.2 then acc
    else
      (acc.1 ++ [NewFileInfo (resolve attrs.name pfx attrs.contentType).1
        (resolve attrs.name pfx attrs.contentType).2 attrs.size
        (match modT (resolve attrs.name pfx attrs.contentType).1 with
         | some t => t
         | none => attrs.updated)],
       if (resolve attrs.name pfx attrs.contentType).2
       then (resolve attrs.name pfx attrs.contentType).1 :: acc.2 else acc.2)

/-- The full `GCSFs.ReadDir` page loop over the pager's pages. -/
def readDirLoop (modT : GoString → Option Int) (pfx : GoString)
    (pages : List (List ObjectAttrs)) : List FileInfo :=
  (pages.foldl (fun acc page => page.foldl (readDirStep modT pfx) acc) ([], [])).1

/-- `GCSFs.ReadDir` (gcsfs.go:334-408) against the modelled store:
delimited listing under the prefix, cut into pages, processed by the
page loop; the folder modification times come from the Metadata
Overlay (`getFolderModTimes`). -/
def ReadDir (s : FsState) (dirname : GoString) : List FileInfo × FsState :=
  (readDirLoop
    (fun nm => if s.hasMetadater
      then overlayLookup s.overlay (ensureAbsPath (gcsJoin2 dirname nm)) else none)
    (getPfx dirname)
    (chunkPages (delimitedList s.store (getPfx dirname))),
   { s with trace := s.trace ++ [.listOp (getPfx dirname)] })

example :
    (ReadDir ⟨[{ name := ['x', '/', 'a'], size := 3 },
               { name := ['x', '/', 'c', '/', 'd'] }], [], false, []⟩ ['x']).1
    = [NewFileInfo ['a'] false 3 0, NewFileInfo ['c'] true 0 0] := by decide

/-- The child loop of `GCSFs.renameInternal` (gcsfs.go:789-798),
parametrized by the recursive call it makes for each entry: rename
each immediate child into the target, accumulate (files, size), stop
at the first error, discarding the failing call's partial counts. -/
def renameChildrenWith
    (child : FsState → GoString → GoString → FileInfo →
      ((Int × Int) × Option GErr) × FsState) :
    FsState → GoString → GoString → List FileInfo →
      ((Int × Int) × Option GErr) × FsState
  | s, _, _, [] => (((0, 0), none), s)
  | s, source, target, info :: rest =>
    match child s (gcsJoin2 source info.name) (gcsJoin2 target info.name) info with
    | ((_, some e), s₁) => (((0, 0), some e), s₁)
    | (((f, sz), none), s₁) =>
      match renameChildrenWith child s₁ source target rest with
      | (((f₂, sz₂), err), s₂) => (((f + f₂, sz + sz₂), err), s₂)

/-- `GCSFs.renameInternal` (gcsfs.go:767-820), with an explicit
recursion bound (`fuel`) and the package-level `renameMode` passed as
the `mode` argument.  For a directory: in mode 0 fail on non-empty
(bounded listing) before any change; create the target marker; in
mode 1 rename every immediate child recursively; finally remove the
source, converting not-found into success.  For a file: server-side
copy with destination precondition, then count the file and its size,
best-effort record the modification time in the Metadata Overlay, and
remove the source with the same not-found conversion. -/
def renameInternal : Nat → FsState → GoString → GoString → FileInfo → Int →
    ((Int × Int) × Option GErr) × FsState
  | 0, s, _, _, _, _ => (((0, 0), some .fuelOut), s)
  | fuel + 1, s, source, target, fi, mode =>
    if fi.isDir then
      match (if mode = 0 then
               match hasContents s source with
               | (.error e, s₁) => (some e, s₁)
               | (.ok true, s₁) => (some (.nonEmptyDir source), s₁)
               | (.ok false, s₁) => (none, s₁)
             else (none, s) : Option GErr × FsState) with
      | (some e, s₁) => (((0, 0), some e), s₁)
      | (none, s₁) =>
        match mkdirInternal s₁ target with
        | (some e, s₂) => (((0, 0), some e), s₂)
        | (none, s₂) =>
          match (if mode = 1 then
                   renameChildrenWith
                     (fun s' se te info => renameInternal fuel s' se te info mode)
                     (ReadDir s₂ source).2 source target (ReadDir s₂ source).1
                 else (((0, 0), none), s₂) :
                 ((Int × Int) × Option GErr) × FsState) with
          | ((acc, some e), s₃) => ((acc, some e), s₃)
          | (((nf, sz), none), s₃) =>
            match renameRemoveSource s₃ source true with
            | (err, s₄) => (((nf, sz), err), s₄)
    else
      match copyFileInternal s source target with
      | (some e, s₁) => (((0, 0), some e), s₁)
      | (none, s₁) =>
        let s₂ : FsState := if s₁.hasMetadater then
            { s₁ with overlay := overlaySet s₁.overlay (ensureAbsPath target) fi.modTime }
          else s₁
        match renameRemoveSource s₂ source false with
        | (err, s₃) => (((1, fi.size), err), s₃)

/-- The child loop of `renameInternal` at a given fuel and mode. -/
def renameChildren (fuel : Nat) (mode : Int) (s : FsState) (source target : GoString)
    (entries : List FileInfo) : ((Int × Int) × Option GErr) × FsState :=
  renameChildrenWith (fun s' se te info => renameInternal fuel s' se te info mode)
    s source target entries

/-- `GCSFs.Rename` (gcsfs.go:226-235): the `source == target` case
returns the `(-1, -1)` sentinels with no backend call; otherwise stat
the source and dispatch to `renameInternal`. -/
def Rename (fuel : Nat) (s : FsState) (source target : GoString) (mode : Int) :
    ((Int × Int) × Option GErr) × FsState :=
  if source = target then (((-1, -1), none), s)
  else
    match getObjectStat s source with
    | (.error e, s₁) => (((-1, -1), some e), s₁)
    | (.ok fi, s₁) => renameInternal fuel s₁ source target fi mode

/-- The sequence of per-child outcomes the child loop would produce,
each run from the state its predecessor left behind. -/
def childCallsWith
    (child : FsState → GoString → GoString → FileInfo →
      ((Int × Int) × Option GErr) × FsState) :
    FsState → GoString → GoString → List FileInfo →
      List (((Int × Int) × Option GErr) × FsState)
  | _, _, _, [] => []
  | s, source, target, info :: rest =>
    (child s (gcsJoin2 source info.name) (gcsJoin2 target info.name) info) ::
      childCallsWith child
        (child s (gcsJoin2 source info.name) (gcsJoin2 target info.name) info).2
        source target rest

/-- The per-child outcomes of `renameInternal` at a given fuel/mode. -/
def childCalls (fuel : Nat) (mode : Int) (s : FsState) (source target : GoString)
    (entries : List FileInfo) : List (((Int × Int) × Option GErr) × FsState) :=
  childCallsWith (fun s' se te info => renameInternal fuel s' se te info mode)
    s source target entries

/-- Sum the (files, bytes) counters over a list of child outcomes. -/
def sumFiles (outs : List (((Int × Int) × Option GErr) × FsState)) : Int × Int :=
  outs.foldl (fun acc r => (acc.1 + r.1.1.1, acc.2 + r.1.1.2)) (0, 0)

/-- The state after the last of a list of child outcomes. -/
def lastStateOf (s : FsState) (outs : List (((Int × Int) × Option GErr) × FsState)) :
    FsState :=
  match outs.getLast? with
  | some r => r.2
  | none => s

/-- The per-page entry loop of `GCSFs.GetDirSize` (gcsfs.go:563-576):
skip tombstoned entries and zero-length directory markers, count every
other entry and accumulate its size. -/
def getDirSizeStep (acc : Int × Int) (attrs : ObjectAttrs) : Int × Int :=
  if attrs.deleted then acc
  else if (listEndsWith attrs.name ['/'] ∨ attrs.contentType = dirMimeType)
      ∧ attrs.size = 0 then acc
  else (acc.1 + 1, acc.2 + attrs.size)

/-- `GCSFs.GetDirSize` (gcsfs.go:538-586) over the pages the
non-delimited paginated listing under `getPfx dirname` returns. -/
def GetDirSize (dirname : GoString) (pages : List (List ObjectAttrs)) : Int × Int :=
  pages.foldl (fun acc page => page.foldl getDirSizeStep acc) (0, 0)

/-- Whether `GetDirSize` counts an entry: live, and not a zero-length
directory marker. -/
def dirSizeCounted (attrs : ObjectAttrs) : Bool :=
  ¬(attrs.deleted = true)
    ∧ ¬((listEndsWith attrs.name ['/'] ∨ attrs.contentType = dirMimeType)
        ∧ attrs.size = 0)

/-- One call of the `filepath.WalkFunc` callback, as recorded by the
modelled `Walk`: the arguments it was invoked with. -/
structure VisitRec where
  path : GoString
  info : Option FileInfo
  errArg : Option GErr
deriving DecidableEq, Repr

/-- The per-page entry loop of `GCSFs.Walk` (gcsfs.go:644-656): skip
tombstoned entries and entries resolving to an empty name, visit the
rest; a non-nil callback result stops the walk and is returned. -/
def walkEntries (pfx : GoString)
    (walkFn : GoString → Option FileInfo → Option GErr → Option GErr) :
    List ObjectAttrs → Option GErr × List VisitRec
  | [] => (none, [])
  | a :: rest =>
    if a.deleted then walkEntries pfx walkFn rest
    else if (resolve a.name pfx a.contentType).1 = [] then walkEntries pfx walkFn rest
    else
      match walkFn a.name (some (NewFileInfo (resolve a.name pfx a.contentType).1
          (resolve a.name pfx a.contentType).2 a.size a.updated)) none with
      | some e =>
        (some e, [⟨a.name, some (NewFileInfo (resolve a.name pfx a.contentType).1
          (resolve a.name pfx a.contentType).2 a.size a.updated), none⟩])
      | none =>
        match walkEntries pfx walkFn rest with
        | (err, vs) =>
          (err, ⟨a.name, some (NewFileInfo (resolve a.name pfx a.contentType).1
            (resolve a.name pfx a.contentType).2 a.size a.updated), none⟩ :: vs)

/-- `GCSFs.Walk` (gcsfs.go:618-667) over the pager's page results:
a page error is passed to the callback (with a nil `FileInfo`) and
returned; when pagination ends normally a synthetic root directory
entry is visited last and the walk returns nil. -/
def walkPages (root pfx : GoString)
    (walkFn : GoString → Option FileInfo → Option GErr → Option GErr) :
    List (Except GErr (List ObjectAttrs)) → Option GErr × List VisitRec
  | [] => (none, [⟨root, some (NewFileInfo root true 0 0), none⟩])
  | .error e :: _ => (some e, [⟨root, none, some e⟩])
  | .ok page :: rest =>
    match walkEntries pfx walkFn page with
    | (some e, vs) => (some e, vs)
    | (none, vs) =>
      match walkPages root pfx walkFn rest with
      | (err, vs₂) => (err, vs ++ vs₂)

/-- What `GCSFs.Open` (gcsfs.go:132-161) did before returning: whether
the background copy task was started, whether the local pipe ends were
closed, whether the cancellation function was invoked on the way out,
and the returned error. -/
structure OpenResult where
  startedCopyTask : Bool
  pipeReaderClosed : Bool
  pipeWriterClosed : Bool
  cancelInvoked : Bool
  err : Option GErr
deriving DecidableEq, Repr

/-- The gzip content encoding (`"gzip"`). -/
def gzipEncoding : GoString := ['g', 'z', 'i', 'p']

/-- `GCSFs.Open` (gcsfs.go:132-161): open a ranged reader; when the
offset is positive and the object's content encoding is gzip, fail
before streaming: close the reader and both pipe ends, invoke the
cancellation function and return the error; otherwise start the
background copy task. -/
def openFile (s : FsState) (name : GoString) (offset : Int) : OpenResult × FsState :=
  match findObject s.store name with
  | none =>
    ({ startedCopyTask := false, pipeReaderClosed := true, pipeWriterClosed := true,
       cancelInvoked := true, err := some .notFound }, s)
  | some attrs =>
    if offset > 0 ∧ attrs.contentEncoding = gzipEncoding then
      ({ startedCopyTask := false, pipeReaderClosed := true, pipeWriterClosed := true,
         cancelInvoked := true, err := some (.rangeGzip offset) }, s)
    else
      ({ startedCopyTask := true, pipeReaderClosed := false, pipeWriterClosed := false,
         cancelInvoked := false, err := none }, s)

example :
    (Rename 2 ⟨[{ name := ['a', '/'], contentType := dirMimeType },
                { name := ['a', '/', 'c', '/', 'd'], size := 5 }], [], false, []⟩
      ['a', '/', 'c'] ['a', '/', 'c', 'c'] 1).1 = ((1, 5), none) := by decide

/-! ### Lemmas about the backend model -/

theorem findObject_append (l₁ l₂ : List ObjectAttrs) (n : GoString) :
    findObject (l₁ ++ l₂) n
      = match findObject l₁ n with
        | some o => some o
        | none => findObject l₂ n := by
  induction l₁ with
  | nil => simp [findObject]
  | cons a l ih =>
    by_cases h : a.name = n
    · simp [findObject, List.find?_cons, h]
    · simp only [findObject] at ih
      simp [findObject, List.find?_cons, h, ih]

theorem findObject_erase_self (store : List ObjectAttrs) (n : GoString) :
    findObject (storeErase store n) n = none := by
  induction store with
  | nil => simp [findObject, storeErase]
  | cons a l ih =>
    by_cases h : a.name = n
    · simpa [storeErase, List.filter_cons, h] using ih
    · simp only [storeErase, List.filter_cons] at ih ⊢
      rw [if_pos (by simp [h])]
      simpa [findObject, List.find?_cons, h] using ih

theorem findObject_erase_ne {n m : GoString} (hne : n ≠ m) (store : List ObjectAttrs) :
    findObject (storeErase store m) n = findObject store n := by
  induction store with
  | nil => simp [findObject, storeErase]
  | cons a l ih =>
    by_cases h : a.name = m
    · have hn : ¬(a.name = n) := fun he => hne (he ▸ h ▸ rfl)
      simp only [storeErase, List.filter_cons] at ih ⊢
      rw [if_neg (by simp [h])]
      simpa [findObject, List.find?_cons, hn] using ih
    · simp only [storeErase, List.filter_cons] at ih ⊢
      rw [if_pos (by simp [h])]
      by_cases hn : a.name = n
      · simp [findObject, List.find?_cons, hn]
      · simpa [findObject, List.find?_cons, hn] using ih

theorem findObject_singleton (o : ObjectAttrs) (n : GoString) :
    findObject [o] n = if o.name = n then some o else none := by
  by_cases h : o.name = n <;> simp [findObject, List.find?_cons, h]

theorem updateFileInfoModTime_dir (s : FsState) (name : GoString) {info : FileInfo}
    (h : info.isDir = true) : updateFileInfoModTime s name info = info := by
  by_cases hm : s.hasMetadater <;> simp [updateFileInfoModTime, hm, h]

theorem copyFileInternal_present {s : FsState} {source : GoString} (target : GoString)
    {src : ObjectAttrs} (hfind : findObject s.store source = some src) :
    copyFileInternal s source target =
      (none,
       { s with
         store := storeErase s.store target ++ [{ src with name := target }],
         trace := s.trace ++ [.headOp target,
           .copyOp source target
             (match findObject s.store target with
              | some _ => .genMatch
              | none => .mustNotExist)] }) := by
  rcases hft : findObject s.store target with _ | o <;>
    simp [copyFileInternal, headObject, hft, hfind, gcsIsNotExist, mimeTypeByExtension]

theorem copyFileInternal_absent {s : FsState} {source : GoString} (target : GoString)
    (hfind : findObject s.store source = none) :
    copyFileInternal s source target =
      (some .notFound,
       { s with
         trace := s.trace ++ [.headOp target,
           .copyOp source target
             (match findObject s.store target with
              | some _ => .genMatch
              | none => .mustNotExist)] }) := by
  rcases hft : findObject s.store target with _ | o <;>
    simp [copyFileInternal, headObject, hft, hfind, gcsIsNotExist]

theorem Remove_file_present {s : FsState} {name : GoString} {o : ObjectAttrs}
    (hfind : findObject s.store name = some o) :
    Remove s name false =
      (none,
       { s with
         store := storeErase s.store name,
         overlay := if s.hasMetadater then overlayRemove s.overlay (ensureAbsPath name)
                    else s.overlay,
         trace := s.trace ++ [.headOp name, .deleteOp name .genMatch] }) := by
  by_cases hm : s.hasMetadater <;>
    simp [Remove, headObject, deleteObject, hfind, hm, gcsIsNotExist]

theorem Remove_file_absent {s : FsState} {name : GoString}
    (hfind : findObject s.store name = none) :
    Remove s name false =
      (some .notFound,
       { s with trace := s.trace ++ [.headOp name, .deleteOp name .noCond] }) := by
  simp [Remove, headObject, deleteObject, hfind, gcsIsNotExist]

theorem renameRemoveSource_file_present {s : FsState} {name : GoString} {o : ObjectAttrs}
    (hfind : findObject s.store name = some o) :
    renameRemoveSource s name false =
      (none,
       { s with
         store := storeErase s.store name,
         overlay := if s.hasMetadater then overlayRemove s.overlay (ensureAbsPath name)
                    else s.overlay,
         trace := s.trace ++ [.headOp name, .deleteOp name .genMatch] }) := by
  simp [renameRemoveSource, Remove_file_present hfind]

theorem renameRemoveSource_file_absent {s : FsState} {name : GoString}
    (hfind : findObject s.store name = none) :
    renameRemoveSource s name false =
      (none,
       { s with trace := s.trace ++ [.headOp name, .deleteOp name .noCond] }) := by
  simp [renameRemoveSource, Remove_file_absent hfind, gcsIsNotExist]

theorem getDirSizeStep_eq (acc : Int × Int) (attrs : ObjectAttrs) :
    getDirSizeStep acc attrs
      = if dirSizeCounted attrs then (acc.1 + 1, acc.2 + attrs.size) else acc := by
  by_cases hd : attrs.deleted
  · simp [getDirSizeStep, dirSizeCounted, hd]
  · by_cases hm : (listEndsWith attrs.name ['/'] ∨ attrs.contentType = dirMimeType)
        ∧ attrs.size = 0
    · simp [getDirSizeStep, dirSizeCounted, hd, hm]
    · simp [getDirSizeStep, dirSizeCounted, hd, hm]

theorem getDirSize_foldl : ∀ (l : List ObjectAttrs) (acc : Int × Int),
    l.foldl getDirSizeStep acc
      = (acc.1 + ((l.filter dirSizeCounted).length : Int),
         acc.2 + ((l.filter dirSizeCounted).map ObjectAttrs.size).sum)
  | [], acc => by simp
  | a :: l, acc => by
    rw [List.foldl_cons, getDirSize_foldl l, getDirSizeStep_eq, List.filter_cons]
    by_cases hc : dirSizeCounted a
    · simp only [hc, if_pos trivial, if_true, List.length_cons, List.map_cons,
        List.sum_cons]
      rw [Prod.mk.injEq]
      constructor <;> push_cast <;> ring
    · simp [hc]

/-- C8: `GetDirSize` counts exactly the live entries that are not
zero-length directory markers: every listing entry that is tombstoned
(non-zero `Deleted` time) or is a zero-length directory marker (key
ending in `"/"` or directory content type, with size 0) contributes to
neither counter, and every other entry contributes exactly 1 to the
file count and its size to the byte count, across all pages. -/
theorem claim_C8 (dirname : GoString) (pages : List (List ObjectAttrs)) :
    GetDirSize dirname pages
      = (((pages.flatten.filter dirSizeCounted).length : Int),
         ((pages.flatten.filter dirSizeCounted).map ObjectAttrs.size).sum) := by
  unfold GetDirSize
  rw [← List.foldl_flatten, getDirSize_foldl]
  simp

/-- C7: opening an object whose content encoding is gzip at a positive
offset fails before any bytes are streamed: the background copy task
is never started, both pipe ends are closed, the cancellation function
is invoked, and the range error is returned. -/
theorem claim_C7 (s : FsState) (name : GoString) (offset : Int) (attrs : ObjectAttrs)
    (hfind : findObject s.store name = some attrs)
    (henc : attrs.contentEncoding = gzipEncoding) (hoff : 0 < offset) :
    openFile s name offset =
      ({ startedCopyTask := false, pipeReaderClosed := true, pipeWriterClosed := true,
         cancelInvoked := true, err := some (.rangeGzip offset) }, s) := by
  simp only [openFile, hfind]
  rw [if_pos ⟨hoff, henc⟩]

theorem claim_C7_witness :
    openFile ⟨[{ name := ['f'], contentEncoding := gzipEncoding }], [], false, []⟩
        ['f'] 7
      = ({ startedCopyTask := false, pipeReaderClosed := true, pipeWriterClosed := true,
           cancelInvoked := true, err := some (.rangeGzip 7) },
         ⟨[{ name := ['f'], contentEncoding := gzipEncoding }], [], false, []⟩) :=
  claim_C7 _ _ _ ⟨['f'], [], 0, [], gzipEncoding, false, 0⟩ (by decide) rfl (by decide)

/-- C3: renaming a directory the bounded non-emptiness listing reports
as non-empty, in fail-on-non-empty mode (renameMode 0), returns the
NonEmptyDirectory error with zero counters and performs no mutation:
the store and overlay are untouched and the only backend call issued
is the bounded listing — no target marker is created and no object is
copied or deleted. -/
theorem claim_C3 (fuel : Nat) (s : FsState) (source target : GoString) (fi : FileInfo)
    (hdir : fi.isDir = true) (hnon : hasContentsB s.store source = true) :
    renameInternal (fuel + 1) s source target fi 0
      = (((0, 0), some (.nonEmptyDir source)),
         { s with trace := s.trace ++ [.listOp (getPfx source)] }) := by
  simp [renameInternal, hdir, hasContents, hnon]

theorem claim_C3_witness :
    renameInternal 1 ⟨[⟨['s', '/', 'x'], [], 0, [], [], false, 0⟩], [], false, []⟩
        ['s'] ['t'] ⟨['s'], true, 0, 0⟩ 0
      = (((0, 0), some (.nonEmptyDir ['s'])),
         ⟨[⟨['s', '/', 'x'], [], 0, [], [], false, 0⟩], [], false,
          [.listOp ['s', '/']]⟩) :=
  claim_C3 0 _ ['s'] ['t'] ⟨['s'], true, 0, 0⟩ rfl (by decide)

/-- C10: `Rename(source, source)` returns immediately with the
sentinel counters `(-1, -1)` and no error, leaving the state — and in
particular the trace of backend calls — untouched; these sentinels
differ from the `(0, 0)` counters other no-progress outcomes return,
such as the fail-mode rename of a non-empty directory. -/
theorem claim_C10 :
    (∀ (fuel : Nat) (s : FsState) (source : GoString) (mode : Int),
      Rename fuel s source source mode = (((-1, -1), none), s))
    ∧ (∀ (fuel : Nat) (s : FsState) (source target : GoString) (fi : FileInfo),
      fi.isDir = true → hasContentsB s.store source = true →
      (renameInternal (fuel + 1) s source target fi 0).1.1 = (0, 0))
    ∧ ((-1, -1) : Int × Int) ≠ ((0, 0) : Int × Int) := by
  refine ⟨?_, ?_, by decide⟩
  · intro fuel s source mode
    simp [Rename]
  · intro fuel s source target fi hdir hnon
    simp [renameInternal, hdir, hasContents, hnon]

theorem claim_C10_witness :
    Rename 1 ⟨[], [], false, []⟩ ['a'] ['a'] 0 = (((-1, -1), none), ⟨[], [], false, []⟩)
    ∧ (renameInternal 1 ⟨[⟨['s', '/', 'y'], [], 0, [], [], false, 0⟩], [], false, []⟩
        ['s'] ['u'] ⟨['s'], true, 0, 0⟩ 0).1.1 = (0, 0) :=
  ⟨claim_C10.1 1 _ ['a'] 0,
   claim_C10.2.1 0 _ ['s'] ['u'] ⟨['s'], true, 0, 0⟩ rfl (by decide)⟩

instance {ε α : Type} [DecidableEq ε] [DecidableEq α] : DecidableEq (Except ε α) :=
  fun x y =>
    match x, y with
    | .ok a, .ok b =>
      if h : a = b then isTrue (by subst h; rfl)
      else isFalse (by intro he; injection he; contradiction)
    | .ok _, .error _ => isFalse (by intro he; exact Except.noConfusion he)
    | .error _, .ok _ => isFalse (by intro he; exact Except.noConfusion he)
    | .error e, .error f =>
      if h : e = f then isTrue (by subst h; rfl)
      else isFalse (by intro he; injection he; contradiction)

/-- C2 counterexample: in a bucket whose only object is `"n//"`, the
name `"n"` has no exact object and no `"n/"` marker, and `"n//"` has
`"n/"` as a strict key prefix and is not the placeholder itself — yet
`Stat("n")` fails with not-found instead of reporting a directory,
because the bounded listing discards `"n//"` (it resolves to the bare
`"/"`) and the final `"n/"` head also misses. -/
theorem claim_C2_counterexample :
    findObject [⟨['n', '/', '/'], [], 0, [], [], false, 0⟩] ['n'] = none
    ∧ findObject [⟨['n', '/', '/'], [], 0, [], [], false, 0⟩] (['n'] ++ ['/']) = none
    ∧ (∃ o ∈ [(⟨['n', '/', '/'], [], 0, [], [], false, 0⟩ : ObjectAttrs)],
        listStartsWith o.name (['n'] ++ ['/']) = true ∧ o.name ≠ ['n'] ++ ['/'])
    ∧ (Stat ⟨[], []⟩ ⟨[⟨['n', '/', '/'], [], 0, [], [], false, 0⟩], [], false, []⟩
        ['n']).1 = .error .notFound := by
  decide

/-- C2 (amended): for every name with no exact object for which the
bounded two-entry listing under `name+"/"` contains at least one entry
resolving to a non-empty name other than `"/"` (this excludes the
`name+"/"` placeholder itself and also the degenerate keys `name+"//"`
and `name+"///"`, and requires such an entry among the first two
listed), `Stat(name)` succeeds and returns a `FileInfo` with
`isDirectory = true` and size 0. -/
theorem claim_C2 (fs : GCSFsCfg) (s : FsState) (name : GoString)
    (hfind : findObject s.store name = none)
    (hnon : hasContentsB s.store name = true) :
    ∃ fi, (Stat fs s name).1 = .ok fi ∧ fi.isDir = true ∧ fi.size = 0 := by
  by_cases hsp : name = [] ∨ name = ['/'] ∨ name = ['.']
  · refine ⟨updateFileInfoModTime s name (NewFileInfo name true 0 0), ?_, ?_, ?_⟩
    · simp [Stat, hsp]
    · rw [updateFileInfoModTime_dir s name rfl]
      rfl
    · rw [updateFileInfoModTime_dir s name rfl]
      rfl
  · by_cases hkp : fs.keyPfx = name ++ ['/']
    · refine ⟨updateFileInfoModTime s name (NewFileInfo name true 0 0), ?_, ?_, ?_⟩
      · simp [Stat, hsp, hkp]
      · rw [updateFileInfoModTime_dir s name rfl]
        rfl
      · rw [updateFileInfoModTime_dir s name rfl]
        rfl
    · refine ⟨updateFileInfoModTime
        { s with trace := s.trace ++ [.headOp name, .listOp (getPfx name)] } name
        (NewFileInfo name true 0 0), ?_, ?_, ?_⟩
      · simp [Stat, hsp, hkp, getObjectStat, headObject, hfind, gcsIsNotExist,
          hasContents, hnon]
      · rw [updateFileInfoModTime_dir _ name rfl]
        rfl
      · rw [updateFileInfoModTime_dir _ name rfl]
        rfl

theorem claim_C2_witness :
    ∃ fi, (Stat ⟨[], []⟩ ⟨[⟨['n', '/', 'x'], [], 0, [], [], false, 0⟩], [], false, []⟩
        ['n']).1 = .ok fi ∧ fi.isDir = true ∧ fi.size = 0 :=
  claim_C2 ⟨[], []⟩ _ ['n'] (by decide) (by decide)

theorem renameRemoveSource_file_present₂
    (store : List ObjectAttrs) (ov : List (GoString × Int)) (hmm : Bool)
    (tr : List BackendOp) {name : GoString} {o : ObjectAttrs}
    (hfind : findObject store name = some o) :
    renameRemoveSource ⟨store, ov, hmm, tr⟩ name false =
      (none, ⟨storeErase store name,
              if hmm then overlayRemove ov (ensureAbsPath name) else ov,
              hmm, tr ++ [.headOp name, .deleteOp name .genMatch]⟩) :=
  renameRemoveSource_file_present hfind

/-- C4: a regular-file rename copies source to target with a
destination precondition (generation-match when the target exists,
must-not-exist when it does not); only after a successful copy does it
count one file and the stat'd source size, best-effort record the
target's modification time in the Metadata Overlay when one is present
(and drop the source's record when the source delete succeeds), and
then delete the source; when the copy fails nothing is counted or
deleted and the state is unchanged apart from the attempted calls; and
a not-found error from the final source delete is converted to
success. -/
theorem claim_C4 :
    (∀ (fuel : Nat) (s : FsState) (source target : GoString) (fi : FileInfo)
       (mode : Int) (src : ObjectAttrs),
      fi.isDir = false → findObject s.store source = some src →
      renameInternal (fuel + 1) s source target fi mode =
        (((1, fi.size), none),
         { store := storeErase (storeErase s.store target ++ [{ src with name := target }])
             source,
           overlay :=
             if s.hasMetadater then
               overlayRemove (overlaySet s.overlay (ensureAbsPath target) fi.modTime)
                 (ensureAbsPath source)
             else s.overlay,
           hasMetadater := s.hasMetadater,
           trace := s.trace ++
             [.headOp target,
              .copyOp source target
                (match findObject s.store target with
                 | some _ => Precond.genMatch
                 | none => Precond.mustNotExist),
              .headOp source, .deleteOp source .genMatch] }))
    ∧ (∀ (fuel : Nat) (s : FsState) (source target : GoString) (fi : FileInfo) (mode : Int),
      fi.isDir = false → findObject s.store source = none →
      renameInternal (fuel + 1) s source target fi mode =
        (((0, 0), some .notFound),
         { s with trace := s.trace ++
             [.headOp target,
              .copyOp source target
                (match findObject s.store target with
                 | some _ => Precond.genMatch
                 | none => Precond.mustNotExist)] }))
    ∧ (∀ (s : FsState) (source : GoString),
      findObject s.store source = none →
      (renameRemoveSource s source false).1 = none) := by
  refine ⟨?_, ?_, ?_⟩
  · intro fuel s source target fi mode src hdir hfind
    have hfound : ∃ o, findObject
        (storeErase s.store target ++ [{ src with name := target }]) source = some o := by
      by_cases he : source = target
      · subst he
        rw [findObject_append, findObject_erase_self, findObject_singleton]
        exact ⟨{ src with name := source }, by simp⟩
      · rw [findObject_append, findObject_erase_ne he, hfind]
        exact ⟨src, rfl⟩
    obtain ⟨o, ho⟩ := hfound
    by_cases hm : s.hasMetadater <;>
      simp [renameInternal, hdir, copyFileInternal_present target hfind,
        renameRemoveSource_file_present₂ _ _ _ _ ho, hm]
  · intro fuel s source target fi mode hdir hfind
    simp [renameInternal, hdir, copyFileInternal_absent target hfind]
  · intro s source hfind
    rw [renameRemoveSource_file_absent hfind]

theorem claim_C4_witness :
    renameInternal 1 ⟨[⟨['f'], [], 9, [], [], false, 0⟩], [], false, []⟩ ['f'] ['g']
        ⟨['f'], false, 9, 5⟩ 0
      = (((1, 9), none),
         ⟨[⟨['g'], [], 9, [], [], false, 0⟩], [], false,
          [.headOp ['g'], .copyOp ['f'] ['g'] .mustNotExist,
           .headOp ['f'], .deleteOp ['f'] .genMatch]⟩) :=
  claim_C4.1 0 ⟨[⟨['f'], [], 9, [], [], false, 0⟩], [], false, []⟩ ['f'] ['g']
    ⟨['f'], false, 9, 5⟩ 0 ⟨['f'], [], 9, [], [], false, 0⟩ rfl (by decide)

/-- The names of the directory entries of a listing result. -/
def dirNames (l : List FileInfo) : List GoString :=
  (l.filter (fun fi => fi.isDir)).map FileInfo.name

theorem dirNames_append_one (l : List FileInfo) (fi : FileInfo) :
    dirNames (l ++ [fi]) = dirNames l ++ if fi.isDir then [fi.name] else [] := by
  by_cases h : fi.isDir <;> simp [dirNames, List.filter_append, List.filter_cons, h]

theorem readDirStep_inv (modT : GoString → Option Int) (pfx : GoString)
    (attrs : ObjectAttrs) (acc : List FileInfo × List GoString)
    (h1 : (dirNames acc.1).Nodup) (h2 : ∀ n ∈ dirNames acc.1, n ∈ acc.2) :
    (dirNames (readDirStep modT pfx acc attrs).1).Nodup
    ∧ ∀ n ∈ dirNames (readDirStep modT pfx acc attrs).1,
        n ∈ (readDirStep modT pfx acc attrs).2 := by
  by_cases hp : attrs.pfx ≠ []
  · by_cases hn : (resolve attrs.pfx pfx attrs.contentType).1 = []
    · simpa [readDirStep, hp, hn] using ⟨h1, h2⟩
    · by_cases hmem : (resolve attrs.pfx pfx attrs.contentType).1 ∈ acc.2
      · simpa [readDirStep, hp, hn, hmem] using ⟨h1, h2⟩
      · have hnot : (resolve attrs.pfx pfx attrs.contentType).1 ∉ dirNames acc.1 :=
          fun hin => hmem (h2 _ hin)
        have hstep : readDirStep modT pfx acc attrs
            = (acc.1 ++ [NewFileInfo (resolve attrs.pfx pfx attrs.contentType).1 true 0 0],
               (resolve attrs.pfx pfx attrs.contentType).1 :: acc.2) := by
          simp [readDirStep, hp, hn, hmem]
        constructor
        · rw [hstep]
          simp [dirNames_append_one, NewFileInfo, List.nodup_append, h1, hnot]
        · intro n hmemn
          rw [hstep] at hmemn ⊢
          simp [dirNames_append_one, NewFileInfo] at hmemn ⊢
          rcases hmemn with hh | hh
          · exact Or.inr (h2 n hh)
          · exact Or.inl hh
  · by_cases hn : (resolve attrs.name pfx attrs.contentType).1 = []
    · simpa [readDirStep, hp, hn] using ⟨h1, h2⟩
    · by_cases hd : attrs.deleted
      · simpa [readDirStep, hp, hn, hd] using ⟨h1, h2⟩
      · by_cases hdir : (resolve attrs.name pfx attrs.contentType).2 = true
        · by_cases hmem : (resolve attrs.name pfx attrs.contentType).1 ∈ acc.2
          · simpa [readDirStep, hp, hn, hd, hdir, hmem] using ⟨h1, h2⟩
          · have hnot : (resolve attrs.name pfx attrs.contentType).1 ∉ dirNames acc.1 :=
              fun hin => hmem (h2 _ hin)
            have hstep : readDirStep modT pfx acc attrs
                = (acc.1 ++ [NewFileInfo (resolve attrs.name pfx attrs.contentType).1
                    true attrs.size
                    (match modT (resolve attrs.name pfx attrs.contentType).1 with
                     | some t => t
                     | none => attrs.updated)],
                   (resolve attrs.name pfx attrs.contentType).1 :: acc.2) := by
              simp [readDirStep, hp, hn, hd, hdir, hmem]
            constructor
            · rw [hstep]
              simp [dirNames_append_one, NewFileInfo, List.nodup_append, h1, hnot]
            · intro n hmemn
              rw [hstep] at hmemn ⊢
              simp [dirNames_append_one, NewFileInfo] at hmemn ⊢
              rcases hmemn with hh | hh
              · exact Or.inr (h2 n hh)
              · exact Or.inl hh
        · have hstep : readDirStep modT pfx acc attrs
              = (acc.1 ++ [NewFileInfo (resolve attrs.name pfx attrs.contentType).1
                  (resolve attrs.name pfx attrs.contentType).2 attrs.size
                  (match modT (resolve attrs.name pfx attrs.contentType).1 with
                   | some t => t
                   | none => attrs.updated)], acc.2) := by
            simp [readDirStep, hp, hn, hd, hdir]
          constructor
          · rw [hstep]
            simpa [dirNames_append_one, NewFileInfo, hdir] using h1
          · intro n hmemn
            rw [hstep] at hmemn ⊢
            simp [dirNames_append_one, NewFileInfo, hdir] at hmemn ⊢
            exact h2 n hmemn

theorem readDirFold_inv (modT : GoString → Option Int) (pfx : GoString) :
    ∀ (l : List ObjectAttrs) (acc : List FileInfo × List GoString),
    (dirNames acc.1).Nodup → (∀ n ∈ dirNames acc.1, n ∈ acc.2) →
    (dirNames (l.foldl (readDirStep modT pfx) acc).1).Nodup
    ∧ ∀ n ∈ dirNames (l.foldl (readDirStep modT pfx) acc).1,
        n ∈ (l.foldl (readDirStep modT pfx) acc).2
  | [], acc, h1, h2 => ⟨h1, h2⟩
  | a :: l, acc, h1, h2 => by
    have hstep := readDirStep_inv modT pfx a acc h1 h2
    simpa using readDirFold_inv modT pfx l (readDirStep modT pfx acc a) hstep.1 hstep.2

theorem readDirPages_inv (modT : GoString → Option Int) (pfx : GoString) :
    ∀ (pages : List (List ObjectAttrs)) (acc : List FileInfo × List GoString),
    (dirNames acc.1).Nodup → (∀ n ∈ dirNames acc.1, n ∈ acc.2) →
    (dirNames (pages.foldl (fun acc page => page.foldl (readDirStep modT pfx) acc)
      acc).1).Nodup
  | [], _, h1, _ => h1
  | page :: pages, acc, h1, h2 => by
    have hstep := readDirFold_inv modT pfx page acc h1 h2
    simpa using readDirPages_inv modT pfx pages
      (page.foldl (readDirStep modT pfx) acc) hstep.1 hstep.2

/-- C6 counterexample: a bucket holding both the regular file object
`"x/a"` and a deeper object `"x/a/b"` makes `ReadDir("x")` return two
entries named `"a"` (a file entry and a virtual-directory entry): the
de-duplication applies only to directory entries, not to a file
sharing a directory's name. -/
theorem claim_C6_counterexample :
    ((ReadDir ⟨[⟨['x', '/', 'a'], [], 0, [], [], false, 0⟩,
                ⟨['x', '/', 'a', '/', 'b'], [], 0, [], [], false, 0⟩],
               [], false, []⟩ ['x']).1).map FileInfo.name = [['a'], ['a']]
    ∧ ¬ (((ReadDir ⟨[⟨['x', '/', 'a'], [], 0, [], [], false, 0⟩,
                     ⟨['x', '/', 'a', '/', 'b'], [], 0, [], [], false, 0⟩],
                    [], false, []⟩ ['x']).1).map FileInfo.name).Nodup := by
  constructor
  · decide
  · decide

/-- C6 (amended): across all pages, `ReadDir` never returns two
DIRECTORY entries with the same name — a subdirectory implied both by
a delimiter prefix and by an explicit directory-marker object is
emitted once, in either arrival order; a regular-file entry, however,
is not de-duplicated against a same-named directory entry. -/
theorem claim_C6 (s : FsState) (dirname : GoString) :
    (dirNames (ReadDir s dirname).1).Nodup := by
  unfold ReadDir readDirLoop
  exact readDirPages_inv _ _ _ ([], []) (by simp [dirNames]) (by simp [dirNames])

/-- Whether `Walk` visits a listing entry: live and resolving to a
non-empty name. -/
def walkLive (pfx : GoString) (a : ObjectAttrs) : Bool :=
  ¬(a.deleted = true) ∧ ¬((resolve a.name pfx a.contentType).1 = [])

/-- The visit `Walk` records for a listing entry. -/
def walkVisitOf (pfx : GoString) (a : ObjectAttrs) : VisitRec :=
  ⟨a.name, some (NewFileInfo (resolve a.name pfx a.contentType).1
    (resolve a.name pfx a.contentType).2 a.size a.updated), none⟩

theorem walkEntries_ok (pfx : GoString)
    (walkFn : GoString → Option FileInfo → Option GErr → Option GErr)
    (hfn : ∀ p i e, walkFn p i e = none) :
    ∀ l : List ObjectAttrs,
    walkEntries pfx walkFn l = (none, (l.filter (walkLive pfx)).map (walkVisitOf pfx))
  | [] => by simp [walkEntries]
  | a :: l => by
    by_cases hd : a.deleted
    · simp [walkEntries, hd, walkLive, List.filter_cons, walkEntries_ok pfx walkFn hfn l]
    · by_cases hn : (resolve a.name pfx a.contentType).1 = []
      · simp [walkEntries, hd, hn, walkLive, List.filter_cons,
          walkEntries_ok pfx walkFn hfn l]
      · simp [walkEntries, hd, hn, hfn, walkLive, List.filter_cons,
          walkEntries_ok pfx walkFn hfn l, walkVisitOf]

theorem walkPages_ok (root pfx : GoString)
    (walkFn : GoString → Option FileInfo → Option GErr → Option GErr)
    (hfn : ∀ p i e, walkFn p i e = none) :
    ∀ pagesL : List (List ObjectAttrs),
    walkPages root pfx walkFn (pagesL.map .ok)
      = (none, ((pagesL.flatten.filter (walkLive pfx)).map (walkVisitOf pfx))
          ++ [⟨root, some (NewFileInfo root true 0 0), none⟩])
  | [] => by simp [walkPages]
  | page :: pagesL => by
    simp [walkPages, walkEntries_ok pfx walkFn hfn page,
      walkPages_ok root pfx walkFn hfn pagesL, List.filter_append]

theorem walkPages_err (root pfx : GoString)
    (walkFn : GoString → Option FileInfo → Option GErr → Option GErr)
    (hfn : ∀ p i e, walkFn p i e = none) (e : GErr)
    (rest : List (Except GErr (List ObjectAttrs))) :
    ∀ pagesL : List (List ObjectAttrs),
    walkPages root pfx walkFn (pagesL.map .ok ++ .error e :: rest)
      = (some e, ((pagesL.flatten.filter (walkLive pfx)).map (walkVisitOf pfx))
          ++ [⟨root, none, some e⟩])
  | [] => by simp [walkPages]
  | page :: pagesL => by
    simp [walkPages, walkEntries_ok pfx walkFn hfn page,
      walkPages_err root pfx walkFn hfn e rest pagesL, List.filter_append]

/-- C9 counterexample: a walk over a listing whose only entry is the
root's own marker object `"a/"` — a live object under the root's
prefix — never visits that object: it resolves to an empty name and
is skipped, so only the synthetic root entry is visited. -/
theorem claim_C9_counterexample :
    (walkPages ['a'] (getPfx ['a']) (fun _ _ _ => none)
        [.ok [⟨['a', '/'], [], 0, [], [], false, 0⟩]]).2
      = [⟨['a'], some (NewFileInfo ['a'] true 0 0), none⟩]
    ∧ (⟨['a', '/'], [], 0, [], [], false, 0⟩ : ObjectAttrs).deleted = false
    ∧ listStartsWith ['a', '/'] (getPfx ['a']) = true
    ∧ ∀ v ∈ (walkPages ['a'] (getPfx ['a']) (fun _ _ _ => none)
        [.ok [⟨['a', '/'], [], 0, [], [], false, 0⟩]]).2, v.path ≠ ['a', '/'] := by
  refine ⟨by decide, by decide, by decide, ?_⟩
  decide

/-- C9 (amended): when the visit callback never aborts, every live
listing entry that resolves to a non-empty name (this excludes the
root's own marker keys, which resolve to the empty name and are
skipped) is visited exactly once; when all pages succeed the call
terminates by visiting a synthetic root directory entry last and
returns nil; and a listing error is passed to the visit callback
(with a nil file info) before being returned. -/
theorem claim_C9 :
    (∀ (root pfx : GoString)
       (walkFn : GoString → Option FileInfo → Option GErr → Option GErr),
      (∀ p i e, walkFn p i e = none) →
      ∀ pagesL : List (List ObjectAttrs),
      walkPages root pfx walkFn (pagesL.map .ok)
        = (none, ((pagesL.flatten.filter (walkLive pfx)).map (walkVisitOf pfx))
            ++ [⟨root, some (NewFileInfo root true 0 0), none⟩]))
    ∧ (∀ (root pfx : GoString)
        (walkFn : GoString → Option FileInfo → Option GErr → Option GErr),
      (∀ p i e, walkFn p i e = none) →
      ∀ (e : GErr) (rest : List (Except GErr (List ObjectAttrs)))
        (pagesL : List (List ObjectAttrs)),
      walkPages root pfx walkFn (pagesL.map .ok ++ .error e :: rest)
        = (some e, ((pagesL.flatten.filter (walkLive pfx)).map (walkVisitOf pfx))
            ++ [⟨root, none, some e⟩]))
    ∧ (∀ (pfx : GoString) (pagesL : List (List ObjectAttrs)) (a : ObjectAttrs),
      (pagesL.flatten.map (fun o => o.name)).Nodup →
      a ∈ pagesL.flatten → walkLive pfx a = true →
      ((pagesL.flatten.filter (walkLive pfx)).map (walkVisitOf pfx)).count
        (walkVisitOf pfx a) = 1) := by
  refine ⟨walkPages_ok, walkPages_err, ?_⟩
  intro pfx pagesL a hnodup ha hlive
  have hsub : ((pagesL.flatten.filter (walkLive pfx)).map (fun o => o.name)).Sublist
      (pagesL.flatten.map (fun o => o.name)) :=
    (List.filter_sublist _).map _
  have hnd : ((pagesL.flatten.filter (walkLive pfx)).map (fun o => o.name)).Nodup :=
    hnodup.sublist hsub
  have hndv : ((pagesL.flatten.filter (walkLive pfx)).map (walkVisitOf pfx)).Nodup := by
    refine List.Nodup.of_map (fun v => v.path) ?_
    rw [List.map_map]
    exact hnd
  have hmem : walkVisitOf pfx a
      ∈ (pagesL.flatten.filter (walkLive pfx)).map (walkVisitOf pfx) :=
    List.mem_map_of_mem _ (List.mem_filter.mpr ⟨ha, hlive⟩)
  exact List.count_eq_one_of_mem hndv hmem

theorem claim_C9_witness :
    walkPages ['r'] [] (fun _ _ _ => none) []
      = (none, [⟨['r'], some (NewFileInfo ['r'] true 0 0), none⟩]) := by
  have h := claim_C9.1 ['r'] [] (fun _ _ _ => none) (fun _ _ _ => rfl) []
  simpa using h

theorem sumFiles_foldl :
    ∀ (l : List (((Int × Int) × Option GErr) × FsState)) (a : Int × Int),
    l.foldl (fun acc r => (acc.1 + r.1.1.1, acc.2 + r.1.1.2)) a
      = (a.1 + (sumFiles l).1, a.2 + (sumFiles l).2)
  | [], a => by simp [sumFiles]
  | r :: l, a => by
    have h1 := sumFiles_foldl l (a.1 + r.1.1.1, a.2 + r.1.1.2)
    have h2 := sumFiles_foldl l (0 + r.1.1.1, 0 + r.1.1.2)
    have hsum : sumFiles (r :: l)
        = (0 + r.1.1.1 + (sumFiles l).1, 0 + r.1.1.2 + (sumFiles l).2) := by
      unfold sumFiles
      rw [List.foldl_cons]
      exact h2
    rw [List.foldl_cons, h1, hsum, Prod.mk.injEq]
    constructor <;> ring

theorem sumFiles_cons (r : ((Int × Int) × Option GErr) × FsState)
    (l : List (((Int × Int) × Option GErr) × FsState)) :
    sumFiles (r :: l) = (r.1.1.1 + (sumFiles l).1, r.1.1.2 + (sumFiles l).2) := by
  unfold sumFiles
  rw [List.foldl_cons, sumFiles_foldl, Prod.mk.injEq]
  constructor <;> (unfold sumFiles; ring)

theorem lastStateOf_cons (s : FsState) (r : ((Int × Int) × Option GErr) × FsState)
    (l : List (((Int × Int) × Option GErr) × FsState)) :
    lastStateOf s (r :: l) = lastStateOf r.2 l := by
  rcases l with _ | ⟨x, xs⟩
  · simp [lastStateOf]
  · show (match (r :: x :: xs).getLast? with | some u => u.2 | none => s)
        = (match (x :: xs).getLast? with | some u => u.2 | none => r.2)
    rw [List.getLast?_cons_cons]
    rcases he : (x :: xs).getLast? with _ | u
    · simp at he
    · rfl

theorem renameChildrenWith_spec
    (child : FsState → GoString → GoString → FileInfo →
      ((Int × Int) × Option GErr) × FsState) :
    ∀ (entries : List FileInfo) (s : FsState) (source target : GoString),
    renameChildrenWith child s source target entries
      = (match (childCallsWith child s source target entries).dropWhile
            (fun r => r.1.2.isNone) with
         | [] =>
           ((sumFiles ((childCallsWith child s source target entries).takeWhile
               (fun r => r.1.2.isNone)), none),
            lastStateOf s ((childCallsWith child s source target entries).takeWhile
               (fun r => r.1.2.isNone)))
         | r :: _ =>
           ((sumFiles ((childCallsWith child s source target entries).takeWhile
               (fun r => r.1.2.isNone)), r.1.2), r.2))
  | [], s, source, target => by
    simp [renameChildrenWith, childCallsWith, sumFiles, lastStateOf]
  | info :: rest, s, source, target => by
    rcases hc : child s (gcsJoin2 source info.name) (gcsJoin2 target info.name) info
      with ⟨⟨⟨f, sz⟩, err⟩, s₁⟩
    have ih := renameChildrenWith_spec child rest s₁ source target
    rcases err with _ | e
    · rcases hdw : (childCallsWith child s₁ source target rest).dropWhile
          (fun r => r.1.2.isNone) with _ | ⟨r, rs⟩
      · rw [hdw] at ih
        simp only [renameChildrenWith, childCallsWith, hc, ih]
        rw [List.dropWhile_cons_of_pos (by simp), hdw,
          List.takeWhile_cons_of_pos (by simp), sumFiles_cons, lastStateOf_cons]
      · rw [hdw] at ih
        simp only [renameChildrenWith, childCallsWith, hc, ih]
        rw [List.dropWhile_cons_of_pos (by simp), hdw,
          List.takeWhile_cons_of_pos (by simp), sumFiles_cons]
    · simp only [renameChildrenWith, childCallsWith, hc]
      rw [List.dropWhile_cons_of_neg (by simp), List.takeWhile_cons_of_neg (by simp)]
      simp [sumFiles]

theorem dropWhile_cons_head_false {α : Type} (p : α → Bool) :
    ∀ {l : List α} {r : α} {rs : List α}, l.dropWhile p = r :: rs → p r = false
  | [], _, _, h => by simp at h
  | a :: l, r, rs, h => by
    by_cases hp : p a
    · rw [List.dropWhile_cons_of_pos hp] at h
      exact dropWhile_cons_head_false p h
    · rw [List.dropWhile_cons_of_neg hp] at h
      cases h
      simpa using hp

/-- C5: in recursive mode (renameMode 1) the child loop performs
exactly one recursive rename per listed immediate child, joining the
child's name onto source and target; the returned (fileCount,
totalBytes) is the sum over the successful child calls; and when a
child rename fails partway, the call returns the counters accumulated
before the failing child together with that first error and the state
exactly as the failing call left it — later children are not
processed.  When every child succeeds, `renameInternal` finishes by
removing the source marker (not-found converted to success). -/
theorem claim_C5 :
    (∀ (fuel : Nat) (mode : Int) (entries : List FileInfo) (s : FsState)
       (source target : GoString),
      renameChildren fuel mode s source target entries
        = (match (childCalls fuel mode s source target entries).dropWhile
              (fun r => r.1.2.isNone) with
           | [] =>
             ((sumFiles ((childCalls fuel mode s source target entries).takeWhile
                 (fun r => r.1.2.isNone)), none),
              lastStateOf s ((childCalls fuel mode s source target entries).takeWhile
                 (fun r => r.1.2.isNone)))
           | r :: _ =>
             ((sumFiles ((childCalls fuel mode s source target entries).takeWhile
                 (fun r => r.1.2.isNone)), r.1.2), r.2)))
    ∧ (∀ (fuel : Nat) (s : FsState) (source target : GoString) (fi : FileInfo),
      fi.isDir = true →
      findObject s.store (dirMarkerName target) = none →
      renameInternal (fuel + 1) s source target fi 1
        = (let s₂ : FsState :=
             { s with
               store := s.store ++
                 [{ name := dirMarkerName target, size := 0,
                    contentType := dirMimeType }],
               trace := s.trace ++ [.putOp (dirMarkerName target) .mustNotExist] }
           let s₃ := (ReadDir s₂ source).2
           let outs := childCalls fuel 1 s₃ source target (ReadDir s₂ source).1
           match outs.dropWhile (fun r => r.1.2.isNone) with
           | [] =>
             ((sumFiles (outs.takeWhile (fun r => r.1.2.isNone)),
               (renameRemoveSource
                 (lastStateOf s₃ (outs.takeWhile (fun r => r.1.2.isNone)))
                 source true).1),
              (renameRemoveSource
                (lastStateOf s₃ (outs.takeWhile (fun r => r.1.2.isNone)))
                source true).2)
           | r :: _ =>
             ((sumFiles (outs.takeWhile (fun r => r.1.2.isNone)), r.1.2), r.2))) := by
  constructor
  · intro fuel mode entries s source target
    exact renameChildrenWith_spec _ entries s source target
  · intro fuel s source target fi hdir hmk
    have hmkeq : mkdirInternal s target
        = (none,
           { s with
             store := s.store ++
               [{ name := dirMarkerName target, size := 0,
                  contentType := dirMimeType }],
             trace := s.trace ++ [.putOp (dirMarkerName target) .mustNotExist] }) := by
      simp [mkdirInternal, hmk]
    simp only [renameInternal, hdir, if_pos rfl,
      if_neg (by norm_num : ¬((1 : Int) = 0)), hmkeq, childCalls,
      renameChildrenWith_spec]
    rcases hdw : (childCallsWith
        (fun s' se te info => renameInternal fuel s' se te info 1)
        (ReadDir { s with
             store := s.store ++
               [{ name := dirMarkerName target, size := 0,
                  contentType := dirMimeType }],
             trace := s.trace ++ [.putOp (dirMarkerName target) .mustNotExist] }
           source).2 source target
        (ReadDir { s with
             store := s.store ++
               [{ name := dirMarkerName target, size := 0,
                  contentType := dirMimeType }],
             trace := s.trace ++ [.putOp (dirMarkerName target) .mustNotExist] }
           source).1).dropWhile (fun r => r.1.2.isNone) with _ | ⟨r, rs⟩
    · rw [hdw]
      simp
    · have hne : r.1.2.isNone = false :=
        dropWhile_cons_head_false
          (fun u : ((Int × Int) × Option GErr) × FsState => u.1.2.isNone) hdw
      rcases hre : r.1.2 with _ | e
      · rw [hre] at hne
        simp at hne
      · rw [hdw]
        simp [hre]

theorem claim_C5_witness :
    (renameInternal 1 ⟨[], [], false, []⟩ ['s'] ['t'] ⟨['s'], true, 0, 0⟩ 1).1
      = ((0, 0), none) := by
  rw [claim_C5.2 0 ⟨[], [], false, []⟩ ['s'] ['t'] ⟨['s'], true, 0, 0⟩ rfl (by decide)]
  decide
